import Mathlib

/-!
# The indentation scanner of the RCL grammar

A shallow embedding of `src/src/scanner.c`, the external scanner that produces
the INDENT and DEDENT tokens, followed by theorems about it.

Conventions of the embedding:

* `uint32_t` values are natural numbers; arithmetic that can wrap is written
  with an explicit `% UINT32_MOD`.
* The text under the cursor is a list of characters.  `lexer->lookahead` is the
  first character of that list, and `0` when the list is empty (end of input).
* The heap array `scanner->indents` is represented by the list of its live
  entries `indents[0] .. indents[indent_length - 1]`; `indent_length` is the
  length of that list.  Slots at or above `indent_length` are never read by
  any function of the scanner.
* A C `char` is an integer; whether plain `char` is signed is fixed by the
  platform and is a parameter `charIsSigned` of the embedding.
-/

namespace RclScanner

/-! ## Machine integers -/

/-- Number of values of a `uint32_t`. -/
def UINT32_MOD : Nat := 4294967296

/-- The conversion `(char)x` of a `uint32_t`: the low eight bits, read as a
value of plain `char`, which is signed or unsigned depending on the platform. -/
def toChar (charIsSigned : Bool) (x : Nat) : Int :=
  if charIsSigned && decide (128 ≤ x % 256) then ((x % 256 : Nat) : Int) - 256
  else ((x % 256 : Nat) : Int)

/-- The conversion `(uint32_t)c` of a `char`: reduction modulo 2^32. -/
def toUint32 (c : Int) : Nat := (c % 4294967296).toNat

/-- The conversion `(int32_t)x` of a `uint32_t`. -/
def toInt32 (x : Nat) : Int :=
  if x % 4294967296 < 2147483648 then ((x % 4294967296 : Nat) : Int)
  else ((x % 4294967296 : Nat) : Int) - 4294967296

/-- Size of the buffer the host hands to `serialize`
(`TREE_SITTER_SERIALIZATION_BUFFER_SIZE` of the host's `parser.h`). -/
def TREE_SITTER_SERIALIZATION_BUFFER_SIZE : Nat := 1024

/-! ## Data model -/

/-- The `enum TokenType` of the scanner. -/
inductive TokenType where
  | INDENT
  | DEDENT
  deriving DecidableEq, Repr

/-- The `Scanner` struct: the live entries of `indents` and the capacity of the
backing array. -/
structure Scanner where
  indents : List Nat
  indent_capacity : Nat
  deriving DecidableEq, Repr

/-- The field `indent_length`: the number of live entries. -/
def Scanner.indent_length (s : Scanner) : Nat := s.indents.length

/-- The part of the host's `TSLexer` the scanner touches: the text from the
cursor on, the symbol written on success, and the position recorded by
`mark_end` (as the text that starts there). -/
structure TSLexer where
  input : List Char
  result_symbol : TokenType
  token_end : List Char
  deriving DecidableEq, Repr

/-- The value of `lexer->lookahead` for the text `input`. -/
def lookahead (input : List Char) : Char :=
  match input with
  | [] => Char.ofNat 0
  | c :: _ => c

/-- The effect of `advance(lexer)` on the text under the cursor. -/
def advance (input : List Char) : List Char := input.tail

/-- The effect of `lexer->mark_end(lexer)`. -/
def mark_end (lexer : TSLexer) : TSLexer := { lexer with token_end := lexer.input }

/-! ## The scan function -/

/-- The comment loop `while (lexer->lookahead && lexer->lookahead != '\n') advance(lexer);`. -/
def skipComment : List Char → List Char
  | [] => []
  | c :: cs => if c ≠ Char.ofNat 0 ∧ c ≠ '\n' then skipComment cs else c :: cs

/-- The local variables of `scan` when its `for (;;)` loop is left, with the
text that remains under the cursor. -/
structure LoopState where
  found_end_of_line : Bool
  indent_length : Nat
  first_comment_indent_length : Int
  input : List Char
  deriving DecidableEq, Repr

/-- The `for (;;)` loop of `scan`, from given values of the local variables. -/
def scanLoop (found_end_of_line : Bool) (indent_length : Nat)
    (first_comment_indent_length : Int) (input : List Char) : LoopState :=
  if h1 : lookahead input = '\n' then
    scanLoop true 0 first_comment_indent_length (advance input)
  else if h2 : lookahead input = ' ' then
    scanLoop found_end_of_line ((indent_length + 1) % UINT32_MOD)
      first_comment_indent_length (advance input)
  else if h3 : lookahead input = '\t' then
    scanLoop found_end_of_line ((indent_length + 8) % UINT32_MOD)
      first_comment_indent_length (advance input)
  else if h4 : lookahead input = '\r' then
    scanLoop found_end_of_line indent_length first_comment_indent_length (advance input)
  else if h5 : lookahead input = '#' then
    scanLoop found_end_of_line indent_length
      (if first_comment_indent_length = -1 then toInt32 indent_length
       else first_comment_indent_length)
      (skipComment input)
  else
    ⟨found_end_of_line, indent_length, first_comment_indent_length, input⟩
termination_by input.length
decreasing_by
  all_goals simp_wf
  · cases input with
    | nil => exact absurd h1 (by decide)
    | cons c cs => simp [advance]
  · cases input with
    | nil => exact absurd h2 (by decide)
    | cons c cs => simp [advance]
  · cases input with
    | nil => exact absurd h3 (by decide)
    | cons c cs => simp [advance]
  · cases input with
    | nil => exact absurd h4 (by decide)
    | cons c cs => simp [advance]
  · cases input with
    | nil => exact absurd h5 (by decide)
    | cons c cs =>
      have hc : c = '#' := h5
      subst hc
      have hle : ∀ l : List Char, (skipComment l).length ≤ l.length := by
        intro l
        induction l with
        | nil => simp [skipComment]
        | cons d ds ih =>
          unfold skipComment
          split
          · exact Nat.le_succ_of_le ih
          · exact Nat.le_refl _
      have := hle cs
      simp only [skipComment, List.length_cons]
      rw [if_pos (by decide)]
      omega

/-- What a call of `scan` leaves behind: the returned flag, the scanner and the
lexer. -/
structure ScanResult where
  returned : Bool
  scanner : Scanner
  lexer : TSLexer
  deriving DecidableEq, Repr

/-- The token a call emitted, if it returned `true`. -/
def ScanResult.emitted (r : ScanResult) : Option TokenType :=
  if r.returned then some r.lexer.result_symbol else none

/-- The local `current_indent_length` of `scan`: the entry on top of the stack,
or 0 when there is none. -/
def current_indent_length (scanner : Scanner) : Nat :=
  if scanner.indent_length > 0 then scanner.indents.getD (scanner.indent_length - 1) 0
  else 0

/-- The function `tree_sitter_rcl_external_scanner_scan`. -/
def tree_sitter_rcl_external_scanner_scan (scanner : Scanner) (lexer : TSLexer)
    (valid_symbols : TokenType → Bool) : ScanResult :=
  let lexer := mark_end lexer
  let st := scanLoop false 0 (-1) lexer.input
  let lexer := { lexer with input := st.input }
  if st.found_end_of_line then
    -- `if (lookahead == 0) { if (indent_length > 0) { ...; return true; } }`
    if lookahead lexer.input = Char.ofNat 0 ∧ scanner.indent_length > 0 then
      ⟨true, { scanner with indents := scanner.indents.dropLast },
        { lexer with result_symbol := TokenType.DEDENT }⟩
    else
      if valid_symbols TokenType.INDENT ∧ st.indent_length > current_indent_length scanner then
        let capacity :=
          if scanner.indent_length = scanner.indent_capacity then
            (if scanner.indent_capacity ≠ 0 then (scanner.indent_capacity * 2) % UINT32_MOD else 1)
          else scanner.indent_capacity
        ⟨true, ⟨scanner.indents ++ [st.indent_length], capacity⟩,
          { lexer with result_symbol := TokenType.INDENT }⟩
      else if valid_symbols TokenType.DEDENT ∧
          st.indent_length < current_indent_length scanner ∧ scanner.indent_length > 0 then
        ⟨true, { scanner with indents := scanner.indents.dropLast },
          { lexer with result_symbol := TokenType.DEDENT }⟩
      else
        ⟨false, scanner, lexer⟩
  else
    ⟨false, scanner, lexer⟩

/-- The function `tree_sitter_rcl_external_scanner_create`: `calloc` gives a
scanner with no entries and capacity 0. -/
def tree_sitter_rcl_external_scanner_create : Scanner := ⟨[], 0⟩

/-! ## Checkpoints -/

/-- The function `tree_sitter_rcl_external_scanner_serialize`: the bytes written
to `buffer[0 .. size - 1]` and the returned `size` (a `size_t` returned as
`unsigned`).  Nothing in the function compares `size` with the size of the
buffer. -/
def tree_sitter_rcl_external_scanner_serialize (charIsSigned : Bool) (scanner : Scanner) :
    List Int × Nat :=
  (toChar charIsSigned scanner.indent_length :: scanner.indents.map (toChar charIsSigned),
    (1 + scanner.indent_length) % UINT32_MOD)

/-- The loop `for (i = 0; i < indent_length; i++) indents[i] = (uint32_t)buffer[size++];`
with `remaining = indent_length - i`.  The result is `none` when the loop reads
outside the bytes of `buffer` (undefined behaviour in C). -/
def readIndents (buffer : List Int) : Nat → Nat → Option (List Nat)
  | 0, _ => some []
  | remaining + 1, size =>
    match buffer[size]? with
    | none => none
    | some c => (readIndents buffer remaining (size + 1)).map (fun l => toUint32 c :: l)

/-- The function `tree_sitter_rcl_external_scanner_deserialize`; `none` when it
reads outside the bytes of `buffer`. -/
def tree_sitter_rcl_external_scanner_deserialize (scanner : Scanner) (buffer : List Int)
    (length : Nat) : Option Scanner :=
  if length > 0 then
    match buffer[0]? with
    | none => none
    | some c =>
      let indent_length := toUint32 c
      let capacity :=
        if indent_length > scanner.indent_capacity then indent_length
        else scanner.indent_capacity
      (readIndents buffer indent_length 1).map (fun l => ⟨l, capacity⟩)
  else
    some ⟨[], scanner.indent_capacity⟩

/-! ## Successive calls -/

/-- The lexer the host hands to the next call: the cursor is put back on the
end of the token, the position recorded by `mark_end`. -/
def TSLexer.resume (lexer : TSLexer) : TSLexer := { lexer with input := lexer.token_end }

/-- The result of call number `k + 1` in a run of successive calls of `scan`
with the same `valid_symbols`, each call resuming where the one before it put
the end of its token. -/
def nthCall (valid_symbols : TokenType → Bool) : Nat → Scanner → TSLexer → ScanResult
  | 0, scanner, lexer => tree_sitter_rcl_external_scanner_scan scanner lexer valid_symbols
  | k + 1, scanner, lexer =>
    nthCall valid_symbols k
      (tree_sitter_rcl_external_scanner_scan scanner lexer valid_symbols).scanner
      (tree_sitter_rcl_external_scanner_scan scanner lexer valid_symbols).lexer.resume

/-- The scanners that `create` followed by calls of `scan` can produce, with
any lexer and any set of valid symbols at each call. -/
inductive Reachable : Scanner → Prop where
  | create : Reachable tree_sitter_rcl_external_scanner_create
  | scan (scanner : Scanner) (lexer : TSLexer) (valid_symbols : TokenType → Bool) :
      Reachable scanner →
      Reachable (tree_sitter_rcl_external_scanner_scan scanner lexer valid_symbols).scanner

/-- A stack of widths that grows strictly from bottom to top. -/
def StrictlyIncreasing (indents : List Nat) : Prop := indents.Pairwise (fun a b => a < b)

instance (indents : List Nat) : Decidable (StrictlyIncreasing indents) := by
  unfold StrictlyIncreasing
  infer_instance

/-- The text of a run of blank lines: for each entry `k` of `spaces`, a line
of `k` spaces closed by a line feed. -/
def blankLines (spaces : List Nat) : List Char :=
  spaces.flatMap (fun k => List.replicate k ' ' ++ ['\n'])

/-- A valid-symbol set given by its two flags. -/
def validSymbols (indent dedent : Bool) : TokenType → Bool
  | TokenType.INDENT => indent
  | TokenType.DEDENT => dedent

/-- A lexer whose cursor is at the start of `input`. -/
def lexerAt (input : List Char) : TSLexer := ⟨input, TokenType.INDENT, input⟩

/-- The text `"A\n  B\n    C\n  D\nE\n"` of the worked scenario. -/
def scenario : List Char :=
  ['A', '\n', ' ', ' ', 'B', '\n', ' ', ' ', ' ', ' ', 'C', '\n', ' ', ' ', 'D', '\n', 'E', '\n']

/-- The least number of tabs whose widths add up to 2^32. -/
def wrapTabs : Nat := 536870912

/-! ## Runs of calls, comments, capacity -/

/-- A run of calls of `scan`, each with its own lexer and valid-symbol set, each
starting from the scanner the call before it left: the tokens emitted, call by
call, and the scanner after the last call. -/
def runCalls : Scanner → List (TSLexer × (TokenType → Bool)) → List (Option TokenType) × Scanner
  | scanner, [] => ([], scanner)
  | scanner, (lexer, valid_symbols) :: calls =>
    ((tree_sitter_rcl_external_scanner_scan scanner lexer valid_symbols).emitted ::
        (runCalls (tree_sitter_rcl_external_scanner_scan scanner lexer valid_symbols).scanner
          calls).1,
      (runCalls (tree_sitter_rcl_external_scanner_scan scanner lexer valid_symbols).scanner
        calls).2)

/-- The texts the skip loop consumes whole and leaves outside a comment: line
feeds, spaces, tabs, carriage returns, and comments closed by their line feed. -/
inductive Skipped : List Char → Prop where
  | nil : Skipped []
  | blank (c : Char) (p : List Char) :
      (c = '\n' ∨ c = ' ' ∨ c = '\t' ∨ c = '\r') → Skipped p → Skipped (c :: p)
  | comment (body p : List Char) :
      (∀ c ∈ body, c ≠ '\n' ∧ c ≠ Char.ofNat 0) → Skipped p →
      Skipped ('#' :: (body ++ '\n' :: p))

/-- The scanners that `create` followed by calls of `scan` and `deserialize` can
produce while the capacity, at each call of `scan`, is below 2^31. -/
inductive ReachableBelow : Scanner → Prop where
  | create : ReachableBelow tree_sitter_rcl_external_scanner_create
  | scan (scanner : Scanner) (lexer : TSLexer) (valid_symbols : TokenType → Bool) :
      ReachableBelow scanner → scanner.indent_capacity < 2147483648 →
      ReachableBelow (tree_sitter_rcl_external_scanner_scan scanner lexer valid_symbols).scanner
  | deserialize (scanner restored : Scanner) (buffer : List Int) (length : Nat) :
      ReachableBelow scanner →
      tree_sitter_rcl_external_scanner_deserialize scanner buffer length = some restored →
      ReachableBelow restored

end RclScanner

/-!
# The archived debug variant

A shallow embedding of `scan` and `create` of
`src/.archive/parser/src/scanner-debug.c`.  The `fprintf` calls write to
`stderr` only and are left out.  The `Scanner` struct, `lookahead` and `advance`
are those of the embedding above.
-/

namespace RclScannerDebug

/-- The `enum TokenType` of the debug variant. -/
inductive TokenType where
  | NEWLINE
  | INDENT
  | DEDENT
  deriving DecidableEq, Repr

/-- The part of the host's `TSLexer` the scanner touches: the text from the
cursor on, the value `get_column` has when `scan` is called, the symbol written
on success, and the position recorded by `mark_end`, if it was called. -/
structure TSLexer where
  input : List Char
  column : Nat
  result_symbol : TokenType
  token_end : Option (List Char)
  deriving DecidableEq, Repr

/-- The local variables of `scan` when its `for (;;)` loop is left, with the
text that remains under the cursor. -/
structure LoopState where
  found_content : Bool
  indent_size : Nat
  input : List Char
  deriving DecidableEq, Repr

/-- The `for (;;)` loop of `scan`, from a given value of `indent_size`. -/
def scanLoop (indent_size : Nat) (input : List Char) : LoopState :=
  if h1 : RclScanner.lookahead input = ' ' then
    scanLoop ((indent_size + 1) % RclScanner.UINT32_MOD) (RclScanner.advance input)
  else if h2 : RclScanner.lookahead input = '\t' then
    scanLoop ((indent_size + 8) % RclScanner.UINT32_MOD) (RclScanner.advance input)
  else if h3 : RclScanner.lookahead input = '\n' ∨ RclScanner.lookahead input = '\r' then
    scanLoop 0
      (if RclScanner.lookahead (RclScanner.advance input) = '\n' then
        RclScanner.advance (RclScanner.advance input)
       else RclScanner.advance input)
  else if RclScanner.lookahead input ≠ Char.ofNat 0 then
    ⟨true, indent_size, input⟩
  else
    ⟨false, indent_size, input⟩
termination_by input.length
decreasing_by
  all_goals simp_wf
  · cases input with
    | nil => exact absurd h1 (by decide)
    | cons c cs => simp [RclScanner.advance]
  · cases input with
    | nil => exact absurd h2 (by decide)
    | cons c cs => simp [RclScanner.advance]
  · cases input with
    | nil => rcases h3 with h | h <;> exact absurd h (by decide)
    | cons c cs =>
      simp only [RclScanner.advance, List.tail_cons, List.length_cons]
      split
      · have := List.length_tail cs
        omega
      · omega

/-- The loop `while (indent_length > 0 && indents[indent_length - 1] > indent_size)`
of the dedent branch: the returned flag and the entries left. -/
def dedentLoop (valid_dedent : Bool) (indent_size : Nat) (indents : List Nat) :
    Bool × List Nat :=
  if h : indents.length > 0 ∧ indents.getD (indents.length - 1) 0 > indent_size then
    if valid_dedent then (true, indents.dropLast)
    else dedentLoop valid_dedent indent_size indents.dropLast
  else
    (false, indents)
termination_by indents.length
decreasing_by
  simp_wf
  have := h.1
  omega

/-- What a call of `scan` leaves behind: the returned flag, the scanner and the
lexer. -/
structure ScanResult where
  returned : Bool
  scanner : RclScanner.Scanner
  lexer : TSLexer
  deriving DecidableEq, Repr

/-- The token a call emitted, if it returned `true`. -/
def ScanResult.emitted (r : ScanResult) : Option TokenType :=
  if r.returned then some r.lexer.result_symbol else none

/-- The function `tree_sitter_rcl_external_scanner_scan` of the debug variant. -/
def tree_sitter_rcl_external_scanner_scan (scanner : RclScanner.Scanner) (lexer : TSLexer)
    (valid_symbols : TokenType → Bool) : ScanResult :=
  if valid_symbols TokenType.NEWLINE ∧
      (RclScanner.lookahead lexer.input = '\n' ∨ RclScanner.lookahead lexer.input = '\r') then
    let input1 := RclScanner.advance lexer.input
    let input2 := if RclScanner.lookahead input1 = '\n' then RclScanner.advance input1 else input1
    ⟨true, scanner,
      { lexer with input := input2, token_end := some input2,
                   result_symbol := TokenType.NEWLINE }⟩
  else if lexer.column > 0 then
    ⟨false, scanner, lexer⟩
  else if ¬ valid_symbols TokenType.INDENT ∧ ¬ valid_symbols TokenType.DEDENT then
    ⟨false, scanner, lexer⟩
  else
    let st := scanLoop 0 lexer.input
    let lexer := { lexer with input := st.input }
    if ¬ st.found_content then
      if RclScanner.lookahead lexer.input = Char.ofNat 0 ∧ scanner.indent_length > 0 then
        ⟨true, { scanner with indents := scanner.indents.dropLast },
          { lexer with result_symbol := TokenType.DEDENT }⟩
      else
        ⟨false, scanner, lexer⟩
    else if RclScanner.lookahead lexer.input = '#' then
      ⟨false, scanner, lexer⟩
    else
      let lexer := { lexer with token_end := some lexer.input }
      let current_indent := RclScanner.current_indent_length scanner
      if st.indent_size > current_indent then
        if valid_symbols TokenType.INDENT then
          let capacity :=
            if scanner.indent_length ≥ scanner.indent_capacity then
              (scanner.indent_capacity * 2) % RclScanner.UINT32_MOD
            else scanner.indent_capacity
          ⟨true, ⟨scanner.indents ++ [st.indent_size], capacity⟩,
            { lexer with result_symbol := TokenType.INDENT }⟩
        else
          ⟨false, scanner, lexer⟩
      else if st.indent_size < current_indent then
        let d := dedentLoop (valid_symbols TokenType.DEDENT) st.indent_size scanner.indents
        if d.1 then
          ⟨true, { scanner with indents := d.2 },
            { lexer with result_symbol := TokenType.DEDENT }⟩
        else
          ⟨false, { scanner with indents := d.2 }, lexer⟩
      else
        ⟨false, scanner, lexer⟩

/-- The function `tree_sitter_rcl_external_scanner_create` of the debug variant:
capacity 16 and the implicit level of width 0 as first entry. -/
def tree_sitter_rcl_external_scanner_create : RclScanner.Scanner := ⟨[0], 16⟩

/-- A valid-symbol set given by its three flags. -/
def validSymbols (newline indent dedent : Bool) : TokenType → Bool
  | TokenType.NEWLINE => newline
  | TokenType.INDENT => indent
  | TokenType.DEDENT => dedent

/-- A lexer whose cursor is at the start of `input`, in column `column`, on
which `mark_end` has not been called. -/
def lexerAt (input : List Char) (column : Nat) : TSLexer :=
  ⟨input, column, TokenType.NEWLINE, none⟩

/-- The characters a call consumed up to the end of its token: the end is the
position recorded by `mark_end`, or the cursor when `mark_end` was not called. -/
def consumed (input : List Char) (r : ScanResult) : List Char :=
  input.take (input.length - ((r.lexer.token_end.getD r.lexer.input).length))

/-- The result of call number `k + 1` in a run of successive calls of `scan` at
the end of the input, in column 0, with the same `valid_symbols`. -/
def nthCallAtEof (valid_symbols : TokenType → Bool) : Nat → RclScanner.Scanner → ScanResult
  | 0, scanner => tree_sitter_rcl_external_scanner_scan scanner (lexerAt [] 0) valid_symbols
  | k + 1, scanner =>
    nthCallAtEof valid_symbols k
      (tree_sitter_rcl_external_scanner_scan scanner (lexerAt [] 0) valid_symbols).scanner

end RclScannerDebug

namespace RclScanner

/-! ## The skip loop -/

theorem scanLoop_nil (f : Bool) (n : Nat) (fc : Int) :
    scanLoop f n fc [] = ⟨f, n, fc, []⟩ := by
  unfold scanLoop
  simp [lookahead]

theorem scanLoop_newline (f : Bool) (n : Nat) (fc : Int) (cs : List Char) :
    scanLoop f n fc ('\n' :: cs) = scanLoop true 0 fc cs := by
  rw [scanLoop]
  simp [lookahead, advance]

theorem scanLoop_space (f : Bool) (n : Nat) (fc : Int) (cs : List Char) :
    scanLoop f n fc (' ' :: cs) = scanLoop f ((n + 1) % UINT32_MOD) fc cs := by
  rw [scanLoop]
  simp [lookahead, advance]

theorem scanLoop_tab (f : Bool) (n : Nat) (fc : Int) (cs : List Char) :
    scanLoop f n fc ('\t' :: cs) = scanLoop f ((n + 8) % UINT32_MOD) fc cs := by
  rw [scanLoop]
  simp [lookahead, advance]

theorem scanLoop_return (f : Bool) (n : Nat) (fc : Int) (cs : List Char) :
    scanLoop f n fc ('\r' :: cs) = scanLoop f n fc cs := by
  rw [scanLoop]
  simp [lookahead, advance]

theorem scanLoop_comment (f : Bool) (n : Nat) (fc : Int) (cs : List Char) :
    scanLoop f n fc ('#' :: cs) =
      scanLoop f n (if fc = -1 then toInt32 n else fc) (skipComment cs) := by
  rw [scanLoop]
  simp [lookahead, skipComment]

theorem scanLoop_stop (f : Bool) (n : Nat) (fc : Int) (c : Char) (cs : List Char)
    (h1 : c ≠ '\n') (h2 : c ≠ ' ') (h3 : c ≠ '\t') (h4 : c ≠ '\r') (h5 : c ≠ '#') :
    scanLoop f n fc (c :: cs) = ⟨f, n, fc, c :: cs⟩ := by
  rw [scanLoop]
  simp [lookahead, h1, h2, h3, h4, h5]

/-! ## The stack -/

theorem current_indent_length_nil (c : Nat) : current_indent_length ⟨[], c⟩ = 0 := by
  simp [current_indent_length, Scanner.indent_length]

theorem current_indent_length_concat (l : List Nat) (x c : Nat) :
    current_indent_length ⟨l ++ [x], c⟩ = x := by
  simp [current_indent_length, Scanner.indent_length, List.getD_eq_getElem?_getD]

theorem le_current_indent_length (l : List Nat) (c a : Nat) (hs : StrictlyIncreasing l)
    (ha : a ∈ l) : a ≤ current_indent_length ⟨l, c⟩ := by
  rcases List.eq_nil_or_concat l with rfl | ⟨init, x, rfl⟩
  · simp at ha
  · rw [List.concat_eq_append] at hs ha ⊢
    rw [current_indent_length_concat]
    unfold StrictlyIncreasing at hs
    rw [List.pairwise_append] at hs
    rcases List.mem_append.mp ha with h | h
    · exact Nat.le_of_lt (hs.2.2 a h x (by simp))
    · simp at h
      omega

theorem strictlyIncreasing_concat (l : List Nat) (c w : Nat) (hs : StrictlyIncreasing l)
    (hw : current_indent_length ⟨l, c⟩ < w) : StrictlyIncreasing (l ++ [w]) := by
  unfold StrictlyIncreasing
  rw [List.pairwise_append]
  refine ⟨hs, by simp, ?_⟩
  intro a ha b hb
  have hb2 : b = w := by simpa using hb
  have := le_current_indent_length l c a hs ha
  omega

theorem strictlyIncreasing_dropLast (l : List Nat) (hs : StrictlyIncreasing l) :
    StrictlyIncreasing l.dropLast :=
  List.Pairwise.sublist (List.dropLast_sublist l) hs

/-! ## One call of scan -/

theorem scan_token_end (s : Scanner) (l : TSLexer) (v : TokenType → Bool) :
    (tree_sitter_rcl_external_scanner_scan s l v).lexer.token_end = l.input := by
  unfold tree_sitter_rcl_external_scanner_scan
  simp only [mark_end]
  split_ifs <;> rfl

theorem scan_not_found (s : Scanner) (l : TSLexer) (v : TokenType → Bool)
    (hf : (scanLoop false 0 (-1) l.input).found_end_of_line = false) :
    (tree_sitter_rcl_external_scanner_scan s l v).returned = false ∧
    (tree_sitter_rcl_external_scanner_scan s l v).scanner = s := by
  simp [tree_sitter_rcl_external_scanner_scan, mark_end, hf]

theorem scan_eof (s : Scanner) (l : TSLexer) (v : TokenType → Bool)
    (hf : (scanLoop false 0 (-1) l.input).found_end_of_line = true)
    (h0 : lookahead (scanLoop false 0 (-1) l.input).input = Char.ofNat 0)
    (hl : 0 < s.indent_length) :
    (tree_sitter_rcl_external_scanner_scan s l v).returned = true ∧
    (tree_sitter_rcl_external_scanner_scan s l v).lexer.result_symbol = TokenType.DEDENT ∧
    (tree_sitter_rcl_external_scanner_scan s l v).scanner = ⟨s.indents.dropLast, s.indent_capacity⟩ := by
  simp [tree_sitter_rcl_external_scanner_scan, mark_end, hf, h0, hl]

theorem scan_indent (s : Scanner) (l : TSLexer) (v : TokenType → Bool)
    (hf : (scanLoop false 0 (-1) l.input).found_end_of_line = true)
    (h0 : ¬ (lookahead (scanLoop false 0 (-1) l.input).input = Char.ofNat 0 ∧ 0 < s.indent_length))
    (hv : v TokenType.INDENT = true)
    (hw : current_indent_length s < (scanLoop false 0 (-1) l.input).indent_length) :
    (tree_sitter_rcl_external_scanner_scan s l v).returned = true ∧
    (tree_sitter_rcl_external_scanner_scan s l v).lexer.result_symbol = TokenType.INDENT ∧
    (tree_sitter_rcl_external_scanner_scan s l v).scanner.indents =
      s.indents ++ [(scanLoop false 0 (-1) l.input).indent_length] := by
  simp only [tree_sitter_rcl_external_scanner_scan, mark_end, hf, if_true]
  rw [if_neg h0, if_pos ⟨hv, hw⟩]
  exact ⟨rfl, rfl, rfl⟩

theorem scan_dedent (s : Scanner) (l : TSLexer) (v : TokenType → Bool)
    (hf : (scanLoop false 0 (-1) l.input).found_end_of_line = true)
    (h0 : ¬ (lookahead (scanLoop false 0 (-1) l.input).input = Char.ofNat 0 ∧ 0 < s.indent_length))
    (hi : ¬ (v TokenType.INDENT = true ∧
      current_indent_length s < (scanLoop false 0 (-1) l.input).indent_length))
    (hv : v TokenType.DEDENT = true)
    (hw : (scanLoop false 0 (-1) l.input).indent_length < current_indent_length s)
    (hl : 0 < s.indent_length) :
    (tree_sitter_rcl_external_scanner_scan s l v).returned = true ∧
    (tree_sitter_rcl_external_scanner_scan s l v).lexer.result_symbol = TokenType.DEDENT ∧
    (tree_sitter_rcl_external_scanner_scan s l v).scanner = ⟨s.indents.dropLast, s.indent_capacity⟩ := by
  simp only [tree_sitter_rcl_external_scanner_scan, mark_end, hf, if_true]
  rw [if_neg h0, if_neg hi, if_pos ⟨hv, hw, hl⟩]
  exact ⟨rfl, rfl, rfl⟩

theorem scan_decline (s : Scanner) (l : TSLexer) (v : TokenType → Bool)
    (h0 : ¬ (lookahead (scanLoop false 0 (-1) l.input).input = Char.ofNat 0 ∧ 0 < s.indent_length))
    (hi : ¬ (v TokenType.INDENT = true ∧
      current_indent_length s < (scanLoop false 0 (-1) l.input).indent_length))
    (hd : ¬ (v TokenType.DEDENT = true ∧
      (scanLoop false 0 (-1) l.input).indent_length < current_indent_length s ∧
      0 < s.indent_length)) :
    (tree_sitter_rcl_external_scanner_scan s l v).returned = false ∧
    (tree_sitter_rcl_external_scanner_scan s l v).scanner = s := by
  simp only [tree_sitter_rcl_external_scanner_scan, mark_end]
  split_ifs <;> exact ⟨rfl, rfl⟩

/-- The scanner after a call is the old one, the old one with its top entry
removed, or the old one with an entry above the old top appended. -/
theorem scan_scanner_cases (s : Scanner) (l : TSLexer) (v : TokenType → Bool) :
    (tree_sitter_rcl_external_scanner_scan s l v).scanner = s ∨
    (tree_sitter_rcl_external_scanner_scan s l v).scanner.indents = s.indents.dropLast ∨
    ∃ w, current_indent_length s < w ∧
      (tree_sitter_rcl_external_scanner_scan s l v).scanner.indents = s.indents ++ [w] := by
  by_cases hf : (scanLoop false 0 (-1) l.input).found_end_of_line = true
  · by_cases h0 : lookahead (scanLoop false 0 (-1) l.input).input = Char.ofNat 0 ∧
        0 < s.indent_length
    · exact Or.inr (Or.inl (by rw [(scan_eof s l v hf h0.1 h0.2).2.2]))
    · by_cases hi : v TokenType.INDENT = true ∧
          current_indent_length s < (scanLoop false 0 (-1) l.input).indent_length
      · exact Or.inr (Or.inr ⟨_, hi.2, (scan_indent s l v hf h0 hi.1 hi.2).2.2⟩)
      · by_cases hd : v TokenType.DEDENT = true ∧
            (scanLoop false 0 (-1) l.input).indent_length < current_indent_length s ∧
            0 < s.indent_length
        · exact Or.inr (Or.inl (by rw [(scan_dedent s l v hf h0 hi hd.1 hd.2.1 hd.2.2).2.2]))
        · exact Or.inl (scan_decline s l v h0 hi hd).2
  · exact Or.inl (scan_not_found s l v (by simpa using hf)).2

theorem scan_preserves_invariant (s : Scanner) (l : TSLexer) (v : TokenType → Bool)
    (hs : StrictlyIncreasing s.indents) (hp : ∀ w ∈ s.indents, 0 < w) :
    StrictlyIncreasing (tree_sitter_rcl_external_scanner_scan s l v).scanner.indents ∧
    ∀ w ∈ (tree_sitter_rcl_external_scanner_scan s l v).scanner.indents, 0 < w := by
  rcases scan_scanner_cases s l v with h | h | ⟨w, hw, h⟩
  · rw [h]; exact ⟨hs, hp⟩
  · rw [h]
    exact ⟨strictlyIncreasing_dropLast _ hs, fun w hw => hp w (List.mem_of_mem_dropLast hw)⟩
  · rw [h]
    refine ⟨strictlyIncreasing_concat s.indents s.indent_capacity w hs hw, ?_⟩
    intro x hx
    rcases List.mem_append.mp hx with hx | hx
    · exact hp x hx
    · have : x = w := by simpa using hx
      omega

/-- A token that `scan` emits is acceptable in `valid_symbols`, except for the
DEDENT of the end-of-file branch, which is emitted without a look at
`valid_symbols`. -/
theorem scan_emitted_valid (s : Scanner) (l : TSLexer) (v : TokenType → Bool) :
    ((tree_sitter_rcl_external_scanner_scan s l v).emitted = some TokenType.INDENT →
      v TokenType.INDENT = true) ∧
    ((tree_sitter_rcl_external_scanner_scan s l v).emitted = some TokenType.DEDENT →
      v TokenType.DEDENT = true ∨
      (lookahead (scanLoop false 0 (-1) l.input).input = Char.ofNat 0 ∧ 0 < s.indent_length)) := by
  by_cases hf : (scanLoop false 0 (-1) l.input).found_end_of_line = true
  · by_cases h0 : lookahead (scanLoop false 0 (-1) l.input).input = Char.ofNat 0 ∧
        0 < s.indent_length
    · have h := scan_eof s l v hf h0.1 h0.2
      simp [ScanResult.emitted, h.1, h.2.1, h0]
    · by_cases hi : v TokenType.INDENT = true ∧
          current_indent_length s < (scanLoop false 0 (-1) l.input).indent_length
      · have h := scan_indent s l v hf h0 hi.1 hi.2
        simp [ScanResult.emitted, h.1, h.2.1, hi.1]
      · by_cases hd : v TokenType.DEDENT = true ∧
            (scanLoop false 0 (-1) l.input).indent_length < current_indent_length s ∧
            0 < s.indent_length
        · have h := scan_dedent s l v hf h0 hi hd.1 hd.2.1 hd.2.2
          simp [ScanResult.emitted, h.1, h.2.1, hd.1]
        · have h := scan_decline s l v h0 hi hd
          simp [ScanResult.emitted, h.1]
  · have h := scan_not_found s l v (by simpa using hf)
    simp [ScanResult.emitted, h.1]

/-! ## Checkpoints -/

theorem toUint32_toChar_unsigned (x : Nat) : toUint32 (toChar false x) = x % 256 := by
  simp only [toUint32, toChar, Bool.false_and, Bool.false_eq_true, if_false]
  omega

theorem toUint32_toChar_signed (x : Nat) :
    toUint32 (toChar true x) = if 128 ≤ x % 256 then x % 256 + 4294967040 else x % 256 := by
  simp only [toUint32, toChar, Bool.true_and, decide_eq_true_eq]
  split <;> omega

theorem toUint32_toChar_range (b : Bool) (x : Nat) :
    toUint32 (toChar b x) < 256 ∨ 4294967168 ≤ toUint32 (toChar b x) := by
  cases b
  · rw [toUint32_toChar_unsigned]; omega
  · rw [toUint32_toChar_signed]; split <;> omega

theorem readIndents_map (g : Nat → Int) (l : List Nat) (pre : List Int) :
    readIndents (pre ++ l.map g) l.length pre.length = some (l.map (fun w => toUint32 (g w))) := by
  induction l generalizing pre with
  | nil => simp [readIndents]
  | cons x xs ih =>
    have h := ih (pre ++ [g x])
    simp only [List.append_assoc, List.singleton_append, List.length_append, List.length_singleton]
      at h
    have hget : (pre ++ g x :: xs.map g)[pre.length]? = some (g x) := by
      rw [List.getElem?_append_right (Nat.le_refl _)]
      simp
    simp only [List.map_cons, List.length_cons, readIndents, hget, h, Option.map_some']

/-- Restoring a checkpoint gives back the stack whenever the level count and
every width survive the passage through a `char`. -/
theorem deserialize_serialize_of_fixed (b : Bool) (s t : Scanner)
    (hlen : s.indent_length ≤ 255)
    (hn : toUint32 (toChar b s.indent_length) = s.indent_length)
    (hw : ∀ w ∈ s.indents, toUint32 (toChar b w) = w) :
    tree_sitter_rcl_external_scanner_deserialize t
      (tree_sitter_rcl_external_scanner_serialize b s).1
      (tree_sitter_rcl_external_scanner_serialize b s).2 =
    some ⟨s.indents, if s.indent_length > t.indent_capacity then s.indent_length
      else t.indent_capacity⟩ := by
  have hpos : 0 < (1 + s.indent_length) % UINT32_MOD := by
    unfold UINT32_MOD
    omega
  have hr := readIndents_map (toChar b) s.indents [toChar b s.indent_length]
  simp only [List.singleton_append, List.length_singleton] at hr
  have hmap : s.indents.map (fun w => toUint32 (toChar b w)) = s.indents := by
    conv_rhs => rw [← List.map_id s.indents]
    exact List.map_congr_left (fun w hw2 => by simpa using hw w hw2)
  simp only [tree_sitter_rcl_external_scanner_deserialize,
    tree_sitter_rcl_external_scanner_serialize, hpos, if_true, List.getElem?_cons_zero, hn]
  rw [show s.indent_length = s.indents.length from rfl] at *
  rw [hr, hmap]
  rfl

/-- With an unsigned plain `char`, a stack of at most 255 levels of width at
most 255 is restored exactly. -/
theorem deserialize_serialize_unsigned (s t : Scanner) (hn : s.indent_length ≤ 255)
    (hw : ∀ w ∈ s.indents, w ≤ 255) :
    tree_sitter_rcl_external_scanner_deserialize t
      (tree_sitter_rcl_external_scanner_serialize false s).1
      (tree_sitter_rcl_external_scanner_serialize false s).2 =
    some ⟨s.indents, if s.indent_length > t.indent_capacity then s.indent_length
      else t.indent_capacity⟩ := by
  apply deserialize_serialize_of_fixed
  · exact hn
  · rw [toUint32_toChar_unsigned]; omega
  · intro w hw2
    have := hw w hw2
    rw [toUint32_toChar_unsigned]; omega

/-- With either signedness of plain `char`, a stack of at most 127 levels of
width at most 127 is restored exactly. -/
theorem deserialize_serialize_small (b : Bool) (s t : Scanner) (hn : s.indent_length ≤ 127)
    (hw : ∀ w ∈ s.indents, w ≤ 127) :
    tree_sitter_rcl_external_scanner_deserialize t
      (tree_sitter_rcl_external_scanner_serialize b s).1
      (tree_sitter_rcl_external_scanner_serialize b s).2 =
    some ⟨s.indents, if s.indent_length > t.indent_capacity then s.indent_length
      else t.indent_capacity⟩ := by
  have key : ∀ x : Nat, x ≤ 127 → toUint32 (toChar b x) = x := by
    intro x hx
    cases b
    · rw [toUint32_toChar_unsigned]; omega
    · rw [toUint32_toChar_signed]; split <;> omega
  exact deserialize_serialize_of_fixed b s t (by omega) (key _ hn)
    (fun w hw2 => key w (hw w hw2))

theorem serialize_size (b : Bool) (s : Scanner) :
    (tree_sitter_rcl_external_scanner_serialize b s).2 = (1 + s.indent_length) % UINT32_MOD ∧
    (tree_sitter_rcl_external_scanner_serialize b s).1.length = 1 + s.indent_length := by
  simp [tree_sitter_rcl_external_scanner_serialize, Scanner.indent_length]
  omega

/-! ## Widths computed by the skip loop -/

/-- A run of spaces and tabs adds 1 for each space and 8 for each tab to the
counter, modulo 2^32. -/
theorem scanLoop_indentation (ws : List Char) (hws : ∀ c ∈ ws, c = ' ' ∨ c = '\t')
    (f : Bool) (n : Nat) (fc : Int) (rest : List Char) :
    scanLoop f (n % UINT32_MOD) fc (ws ++ rest) =
      scanLoop f ((n + ws.count ' ' + 8 * ws.count '\t') % UINT32_MOD) fc rest := by
  induction ws generalizing n with
  | nil => simp
  | cons c cs ih =>
    have hcs : ∀ d ∈ cs, d = ' ' ∨ d = '\t' := fun d hd => hws d (List.mem_cons_of_mem c hd)
    rcases hws c (List.mem_cons_self c cs) with hc | hc
    · subst hc
      rw [List.cons_append, scanLoop_space]
      have e : (n % UINT32_MOD + 1) % UINT32_MOD = (n + 1) % UINT32_MOD := by
        unfold UINT32_MOD; omega
      rw [e, ih hcs (n + 1)]
      have e2 : List.count ' ' (' ' :: cs) = List.count ' ' cs + 1 := by simp
      have e3 : List.count '\t' (' ' :: cs) = List.count '\t' cs := by
        rw [List.count_cons_of_ne (by decide)]
      rw [e2, e3]
      congr 2
      omega
    · subst hc
      rw [List.cons_append, scanLoop_tab]
      have e : (n % UINT32_MOD + 8) % UINT32_MOD = (n + 8) % UINT32_MOD := by
        unfold UINT32_MOD; omega
      rw [e, ih hcs (n + 8)]
      have e2 : List.count '\t' ('\t' :: cs) = List.count '\t' cs + 1 := by simp
      have e3 : List.count ' ' ('\t' :: cs) = List.count ' ' cs := by
        rw [List.count_cons_of_ne (by decide)]
      rw [e2, e3]
      congr 2
      omega

theorem scanLoop_spaces_newline (k : Nat) (f : Bool) (n : Nat) (fc : Int) (rest : List Char) :
    scanLoop f n fc (List.replicate k ' ' ++ '\n' :: rest) = scanLoop true 0 fc rest := by
  induction k generalizing n with
  | zero => simp [scanLoop_newline]
  | succ k ih =>
    rw [List.replicate_succ, List.cons_append, scanLoop_space, ih]

/-- Blank lines met after a line feed leave the loop where the line feed left
it. -/
theorem scanLoop_blankLines (spaces : List Nat) (fc : Int) (rest : List Char) :
    scanLoop true 0 fc (blankLines spaces ++ rest) = scanLoop true 0 fc rest := by
  induction spaces with
  | nil => simp [blankLines]
  | cons k ks ih =>
    have e : blankLines (k :: ks) ++ rest =
        List.replicate k ' ' ++ '\n' :: (blankLines ks ++ rest) := by
      simp [blankLines]
    rw [e, scanLoop_spaces_newline, ih]

/-- Lines indented by 1, 2, ..., n spaces, scanned one after the other with
INDENT acceptable, build the stack 1, 2, ..., n. -/
theorem reachable_range (n : Nat) (hn : n < UINT32_MOD) :
    ∃ c, Reachable ⟨List.range' 1 n, c⟩ := by
  induction n with
  | zero => exact ⟨0, Reachable.create⟩
  | succ n ih =>
    obtain ⟨c, hc⟩ := ih (by omega)
    have hloop : scanLoop false 0 (-1) ('\n' :: (List.replicate (n + 1) ' ' ++ ['X'])) =
        ⟨true, n + 1, -1, ['X']⟩ := by
      rw [scanLoop_newline]
      have h := scanLoop_indentation (List.replicate (n + 1) ' ')
        (fun c hc => Or.inl (List.eq_of_mem_replicate hc)) true 0 (-1) ['X']
      have e0 : 0 % UINT32_MOD = 0 := by unfold UINT32_MOD; rfl
      have e1 : List.count '\t' (List.replicate (n + 1) ' ') = 0 := by
        rw [List.count_replicate]; simp
      have e2 : List.count ' ' (List.replicate (n + 1) ' ') = n + 1 := by
        rw [List.count_replicate]; simp
      rw [e0, e1, e2] at h
      rw [h, scanLoop_stop _ _ _ _ _ (by decide) (by decide) (by decide) (by decide) (by decide)]
      have e3 : (0 + (n + 1) + 8 * 0) % UINT32_MOD = n + 1 := by
        rw [Nat.mod_eq_of_lt] <;> omega
      rw [e3]
    have hcur : current_indent_length ⟨List.range' 1 n, c⟩ < n + 1 := by
      cases n with
      | zero => simp [current_indent_length, Scanner.indent_length]
      | succ m =>
        rw [List.range'_concat, current_indent_length_concat]
        omega
    have hs := scan_indent ⟨List.range' 1 n, c⟩
      (lexerAt ('\n' :: (List.replicate (n + 1) ' ' ++ ['X']))) (validSymbols true true)
      (by simp only [lexerAt]; rw [hloop])
      (by simp only [lexerAt]; rw [hloop]; simp [lookahead])
      rfl
      (by simp only [lexerAt]; rw [hloop]; exact hcur)
    have hr := Reachable.scan ⟨List.range' 1 n, c⟩
      (lexerAt ('\n' :: (List.replicate (n + 1) ' ' ++ ['X']))) (validSymbols true true) hc
    refine ⟨(tree_sitter_rcl_external_scanner_scan ⟨List.range' 1 n, c⟩
      (lexerAt ('\n' :: (List.replicate (n + 1) ' ' ++ ['X'])))
      (validSymbols true true)).scanner.indent_capacity, ?_⟩
    have hi : (tree_sitter_rcl_external_scanner_scan ⟨List.range' 1 n, c⟩
      (lexerAt ('\n' :: (List.replicate (n + 1) ' ' ++ ['X'])))
      (validSymbols true true)).scanner.indents = List.range' 1 (n + 1) := by
      rw [hs.2.2]
      simp only [lexerAt]
      rw [hloop, List.range'_concat]
      simp [Nat.add_comm]
    rw [← hi]
    exact hr

/-! ## Runs of successive calls -/

theorem resume_input (s : Scanner) (l : TSLexer) (v : TokenType → Bool) :
    (tree_sitter_rcl_external_scanner_scan s l v).lexer.resume.input = l.input := by
  simp only [TSLexer.resume]
  exact scan_token_end s l v

theorem nthCall_succ (v : TokenType → Bool) (k : Nat) (s : Scanner) (l : TSLexer) :
    nthCall v (k + 1) s l =
      nthCall v k (tree_sitter_rcl_external_scanner_scan s l v).scanner
        (tree_sitter_rcl_external_scanner_scan s l v).lexer.resume := rfl

theorem take_concat_pred (init : List Nat) (x k : Nat) :
    List.take ((init ++ [x]).length - (k + 2)) (init ++ [x]) =
      List.take (init.length - (k + 1)) init := by
  have e : (init ++ [x]).length - (k + 2) = init.length - (k + 1) := by
    simp only [List.length_append, List.length_singleton]
    omega
  rw [e, List.take_append_of_le_length (Nat.sub_le _ _)]

theorem take_concat_length (init : List Nat) (x : Nat) :
    List.take ((init ++ [x]).length - 1) (init ++ [x]) = init := by
  simp

/-- The end-of-file branch: at a position where the skip loop meets a line feed
and then the end of the input, successive calls pop the stack one level per
call, and the call made on the empty stack declines unless it can emit INDENT. -/
theorem eof_run (inp : List Char) (v : TokenType → Bool)
    (hf : (scanLoop false 0 (-1) inp).found_end_of_line = true)
    (h0 : lookahead (scanLoop false 0 (-1) inp).input = Char.ofNat 0)
    (indents : List Nat) : ∀ (cap : Nat) (l : TSLexer), l.input = inp →
    (∀ k, k < indents.length →
      (nthCall v k ⟨indents, cap⟩ l).emitted = some TokenType.DEDENT ∧
      (nthCall v k ⟨indents, cap⟩ l).scanner.indents =
        indents.take (indents.length - (k + 1))) ∧
    (((scanLoop false 0 (-1) inp).indent_length = 0 ∨ v TokenType.INDENT = false) →
      (nthCall v indents.length ⟨indents, cap⟩ l).emitted = none ∧
      (nthCall v indents.length ⟨indents, cap⟩ l).scanner.indents = []) := by
  induction indents using List.reverseRecOn with
  | nil =>
    intro cap l hl
    subst hl
    refine ⟨fun k hk => absurd hk (by simp), fun hcond => ?_⟩
    have h := scan_decline ⟨[], cap⟩ l v (by simp [Scanner.indent_length])
      (by
        rw [current_indent_length_nil]
        rcases hcond with hw | hv
        · rw [hw]; simp
        · rw [hv]; simp)
      (by simp [Scanner.indent_length])
    simp only [List.length_nil, nthCall]
    exact ⟨by simp [ScanResult.emitted, h.1], by rw [h.2]⟩
  | append_singleton init x ih =>
    intro cap l hl
    subst hl
    have h := scan_eof ⟨init ++ [x], cap⟩ l v hf h0 (by simp [Scanner.indent_length])
    have hsc : (tree_sitter_rcl_external_scanner_scan ⟨init ++ [x], cap⟩ l v).scanner =
        ⟨init, cap⟩ := by
      rw [h.2.2]; simp
    have hin := resume_input ⟨init ++ [x], cap⟩ l v
    have ih2 := ih cap (tree_sitter_rcl_external_scanner_scan ⟨init ++ [x], cap⟩ l v).lexer.resume hin
    refine ⟨fun k hk => ?_, fun hcond => ?_⟩
    · cases k with
      | zero =>
        simp only [nthCall]
        refine ⟨by simp [ScanResult.emitted, h.1, h.2.1], ?_⟩
        rw [hsc]
        exact (take_concat_length init x).symm
      | succ k =>
        rw [nthCall_succ, hsc, take_concat_pred]
        exact ih2.1 k (by simpa using hk)
    · have e : (init ++ [x]).length = init.length + 1 := by simp
      rw [e, nthCall_succ, hsc]
      exact ih2.2 hcond

/-- What a call returns, and the scanner and cursor it leaves, depend on the
text only through the outcome of the skip loop. -/
theorem scan_congr (s : Scanner) (l1 l2 : TSLexer) (v : TokenType → Bool)
    (h : scanLoop false 0 (-1) l1.input = scanLoop false 0 (-1) l2.input) :
    (tree_sitter_rcl_external_scanner_scan s l1 v).returned =
      (tree_sitter_rcl_external_scanner_scan s l2 v).returned ∧
    (tree_sitter_rcl_external_scanner_scan s l1 v).emitted =
      (tree_sitter_rcl_external_scanner_scan s l2 v).emitted ∧
    (tree_sitter_rcl_external_scanner_scan s l1 v).scanner =
      (tree_sitter_rcl_external_scanner_scan s l2 v).scanner ∧
    (tree_sitter_rcl_external_scanner_scan s l1 v).lexer.input =
      (tree_sitter_rcl_external_scanner_scan s l2 v).lexer.input := by
  simp only [tree_sitter_rcl_external_scanner_scan, mark_end, h, ScanResult.emitted]
  split_ifs <;> simp_all

/-! ## Claims -/

/-- C3: every scanner reachable from `create` by calls of `scan` has a stack
that is strictly increasing from bottom to top, and every stored width is
greater than 0. -/
theorem reachable_stack_strictly_increasing (s : Scanner) (h : Reachable s) :
    StrictlyIncreasing s.indents ∧ ∀ w ∈ s.indents, 0 < w := by
  induction h with
  | create =>
    exact ⟨List.Pairwise.nil, fun w hw => by
      simp [tree_sitter_rcl_external_scanner_create] at hw⟩
  | scan scanner lexer valid_symbols _ ih =>
    exact scan_preserves_invariant scanner lexer valid_symbols ih.1 ih.2

/-- Witness of C3: the scanner left by `scan` on a line break followed by a line
indented by two spaces, called on a fresh scanner, has the stack `[2]`. -/
theorem reachable_stack_strictly_increasing_witness :
    (tree_sitter_rcl_external_scanner_scan tree_sitter_rcl_external_scanner_create
      (lexerAt ['\n', ' ', ' ', 'B']) (validSymbols true true)).scanner.indents = [2] ∧
    (StrictlyIncreasing
      (tree_sitter_rcl_external_scanner_scan tree_sitter_rcl_external_scanner_create
        (lexerAt ['\n', ' ', ' ', 'B']) (validSymbols true true)).scanner.indents ∧
    ∀ w ∈ (tree_sitter_rcl_external_scanner_scan tree_sitter_rcl_external_scanner_create
        (lexerAt ['\n', ' ', ' ', 'B']) (validSymbols true true)).scanner.indents, 0 < w) :=
  ⟨by simp [tree_sitter_rcl_external_scanner_scan, tree_sitter_rcl_external_scanner_create,
      mark_end, lexerAt, scanLoop, lookahead, advance, UINT32_MOD, validSymbols,
      current_indent_length, Scanner.indent_length],
   reachable_stack_strictly_increasing _
    (Reachable.scan _ (lexerAt ['\n', ' ', ' ', 'B']) (validSymbols true true) Reachable.create)⟩

/-- C1: with a signed plain `char`, a stack holding the single width 200 does
not survive a checkpoint; `deserialize` applied to the bytes and length returned
by `serialize` gives a stack holding the width 4294967240. -/
theorem checkpoint_width_200_signed_char :
    tree_sitter_rcl_external_scanner_deserialize tree_sitter_rcl_external_scanner_create
      (tree_sitter_rcl_external_scanner_serialize true ⟨[200], 1⟩).1
      (tree_sitter_rcl_external_scanner_serialize true ⟨[200], 1⟩).2 =
    some ⟨[4294967240], 1⟩ := by
  decide

/-- C2: on the end-of-file branch `scan` emits DEDENT and pops a level although
only INDENT, and not DEDENT, is acceptable in `valid_symbols`. -/
theorem scan_eof_dedent_not_acceptable :
    validSymbols true false TokenType.DEDENT = false ∧
    (tree_sitter_rcl_external_scanner_scan ⟨[2], 1⟩ (lexerAt ['\n'])
      (validSymbols true false)).emitted = some TokenType.DEDENT ∧
    (tree_sitter_rcl_external_scanner_scan ⟨[2], 1⟩ (lexerAt ['\n'])
      (validSymbols true false)).scanner.indents = [] := by
  simp [tree_sitter_rcl_external_scanner_scan, mark_end, lexerAt, scanLoop_newline, scanLoop_nil,
    lookahead, validSymbols, ScanResult.emitted, Scanner.indent_length]

/-- C7: a stack of 1024 levels, which `scan` can build from `create`, makes
`serialize` write and return 1025 bytes, more than the 1024 bytes of the
serialization buffer. -/
theorem serialize_exceeds_buffer :
    ∃ s, Reachable s ∧ s.indent_length = 1024 ∧
      (tree_sitter_rcl_external_scanner_serialize true s).2 = 1025 ∧
      (tree_sitter_rcl_external_scanner_serialize true s).1.length = 1025 ∧
      TREE_SITTER_SERIALIZATION_BUFFER_SIZE <
        (tree_sitter_rcl_external_scanner_serialize true s).2 := by
  obtain ⟨c, hc⟩ := reachable_range 1024 (by unfold UINT32_MOD; omega)
  have hl : (⟨List.range' 1 1024, c⟩ : Scanner).indent_length = 1024 := by
    simp [Scanner.indent_length]
  have h := serialize_size true ⟨List.range' 1 1024, c⟩
  rw [hl] at h
  refine ⟨⟨List.range' 1 1024, c⟩, hc, hl, ?_, h.2, ?_⟩
  · rw [h.1]; unfold UINT32_MOD; rfl
  · rw [h.1]; unfold UINT32_MOD TREE_SITTER_SERIALIZATION_BUFFER_SIZE; decide

/-- With no character left under the cursor, every call in a run of successive
calls declines and leaves the scanner as it was, whatever is acceptable. -/
theorem end_of_input_run (v : TokenType → Bool) (k : Nat) : ∀ (s : Scanner) (l : TSLexer),
    l.input = [] →
    (nthCall v k s l).returned = false ∧ (nthCall v k s l).scanner = s := by
  induction k with
  | zero =>
    intro s l hl
    simp only [nthCall]
    exact scan_not_found s l v (by rw [hl, scanLoop_nil])
  | succ k ih =>
    intro s l hl
    have h := scan_not_found s l v (by rw [hl, scanLoop_nil])
    have hin := resume_input s l v
    rw [nthCall_succ, h.2]
    exact ih s _ (by rw [hin, hl])

/-- C4: with three levels open, DEDENT acceptable and the cursor at the end of
the input, where no character remains, the first call declines and pops
nothing, and so do the three calls after it; no DEDENT is emitted. -/
theorem eof_drain_at_end_of_input_declines :
    validSymbols true true TokenType.DEDENT = true ∧
    lookahead (lexerAt []).input = Char.ofNat 0 ∧
    (nthCall (validSymbols true true) 0 ⟨[2, 4, 6], 4⟩ (lexerAt [])).emitted = none ∧
    (nthCall (validSymbols true true) 0 ⟨[2, 4, 6], 4⟩ (lexerAt [])).scanner.indents =
      [2, 4, 6] ∧
    (nthCall (validSymbols true true) 1 ⟨[2, 4, 6], 4⟩ (lexerAt [])).emitted = none ∧
    (nthCall (validSymbols true true) 2 ⟨[2, 4, 6], 4⟩ (lexerAt [])).emitted = none ∧
    (nthCall (validSymbols true true) 3 ⟨[2, 4, 6], 4⟩ (lexerAt [])).emitted = none ∧
    (nthCall (validSymbols true true) 3 ⟨[2, 4, 6], 4⟩ (lexerAt [])).scanner.indents =
      [2, 4, 6] := by
  refine ⟨rfl, rfl, ?_, ?_, ?_, ?_, ?_, ?_⟩ <;>
    simp [nthCall, tree_sitter_rcl_external_scanner_scan, mark_end, lexerAt, TSLexer.resume,
      scanLoop_nil, ScanResult.emitted]

/-- The end-of-file branch as the code has it: from a cursor position where the
skip loop consumes a line feed and then reaches the end of the input, each of
the first n successive calls on a stack of n levels emits DEDENT and removes
the top level, without a look at `valid_symbols`; the call on the empty stack
declines when the text after the last line feed has width 0 or INDENT is not
acceptable. -/
theorem eof_branch_after_line_break (s : Scanner) (l : TSLexer) (v : TokenType → Bool)
    (hf : (scanLoop false 0 (-1) l.input).found_end_of_line = true)
    (h0 : lookahead (scanLoop false 0 (-1) l.input).input = Char.ofNat 0) :
    (∀ k, k < s.indent_length →
      (nthCall v k s l).emitted = some TokenType.DEDENT ∧
      (nthCall v k s l).scanner.indents = s.indents.take (s.indent_length - (k + 1))) ∧
    (((scanLoop false 0 (-1) l.input).indent_length = 0 ∨ v TokenType.INDENT = false) →
      (nthCall v s.indent_length s l).emitted = none ∧
      (nthCall v s.indent_length s l).scanner.indents = []) := by
  cases s with
  | mk indents cap => exact eof_run l.input v hf h0 indents cap l rfl

/-- C8: the worked scenario.  On the text `"A\n  B\n    C\n  D\nE\n"`, from a fresh
scanner and with INDENT and DEDENT acceptable: `scan` declines at the start;
emits INDENT leaving `[2]` at the line break before B; emits INDENT leaving
`[2, 4]` at the line break before C; emits DEDENT leaving `[2]` at the line
break before D and declines when called there again; emits DEDENT leaving the
empty stack at the line break before E and declines when called there again;
and declines at the last line break. -/
theorem worked_scenario :
    scenario = String.toList "A\n  B\n    C\n  D\nE\n" ∧
    (nthCall (validSymbols true true) 0 tree_sitter_rcl_external_scanner_create
      (lexerAt scenario)).emitted = none ∧
    (nthCall (validSymbols true true) 0 tree_sitter_rcl_external_scanner_create
      (lexerAt scenario)).scanner = ⟨[], 0⟩ ∧
    (nthCall (validSymbols true true) 0 ⟨[], 0⟩ (lexerAt (scenario.drop 1))).emitted =
      some TokenType.INDENT ∧
    (nthCall (validSymbols true true) 0 ⟨[], 0⟩ (lexerAt (scenario.drop 1))).scanner = ⟨[2], 1⟩ ∧
    (nthCall (validSymbols true true) 0 ⟨[2], 1⟩ (lexerAt (scenario.drop 5))).emitted =
      some TokenType.INDENT ∧
    (nthCall (validSymbols true true) 0 ⟨[2], 1⟩ (lexerAt (scenario.drop 5))).scanner =
      ⟨[2, 4], 2⟩ ∧
    (nthCall (validSymbols true true) 0 ⟨[2, 4], 2⟩ (lexerAt (scenario.drop 11))).emitted =
      some TokenType.DEDENT ∧
    (nthCall (validSymbols true true) 0 ⟨[2, 4], 2⟩ (lexerAt (scenario.drop 11))).scanner =
      ⟨[2], 2⟩ ∧
    (nthCall (validSymbols true true) 1 ⟨[2, 4], 2⟩ (lexerAt (scenario.drop 11))).emitted = none ∧
    (nthCall (validSymbols true true) 1 ⟨[2, 4], 2⟩ (lexerAt (scenario.drop 11))).scanner =
      ⟨[2], 2⟩ ∧
    (nthCall (validSymbols true true) 0 ⟨[2], 2⟩ (lexerAt (scenario.drop 15))).emitted =
      some TokenType.DEDENT ∧
    (nthCall (validSymbols true true) 0 ⟨[2], 2⟩ (lexerAt (scenario.drop 15))).scanner =
      ⟨[], 2⟩ ∧
    (nthCall (validSymbols true true) 1 ⟨[2], 2⟩ (lexerAt (scenario.drop 15))).emitted = none ∧
    (nthCall (validSymbols true true) 1 ⟨[2], 2⟩ (lexerAt (scenario.drop 15))).scanner =
      ⟨[], 2⟩ ∧
    (nthCall (validSymbols true true) 0 ⟨[], 2⟩ (lexerAt (scenario.drop 17))).emitted = none ∧
    (nthCall (validSymbols true true) 0 ⟨[], 2⟩ (lexerAt (scenario.drop 17))).scanner =
      ⟨[], 2⟩ := by
  refine ⟨by decide, ?_, ?_, ?_, ?_, ?_, ?_, ?_, ?_, ?_, ?_, ?_, ?_, ?_, ?_, ?_, ?_⟩ <;>
    simp [scenario, nthCall, tree_sitter_rcl_external_scanner_scan,
      tree_sitter_rcl_external_scanner_create, mark_end, lexerAt, TSLexer.resume, scanLoop,
      lookahead, advance, UINT32_MOD, validSymbols, ScanResult.emitted, current_indent_length,
      Scanner.indent_length]

/-- C9 (as stated, refuted): a line indented by 536870912 tabs has
s + 8 * t = 4294967296, but the width `scan` uses is 0; from the empty stack
with INDENT acceptable the call declines and pushes nothing. -/
theorem tab_width_wraps :
    wrapTabs = 536870912 ∧ 0 + 8 * wrapTabs = 4294967296 ∧
    (scanLoop false 0 (-1)
      ('\n' :: (List.replicate wrapTabs '\t' ++ ['X']))).indent_length = 0 ∧
    (tree_sitter_rcl_external_scanner_scan tree_sitter_rcl_external_scanner_create
      (lexerAt ('\n' :: (List.replicate wrapTabs '\t' ++ ['X'])))
      (validSymbols true true)).emitted = none ∧
    (tree_sitter_rcl_external_scanner_scan tree_sitter_rcl_external_scanner_create
      (lexerAt ('\n' :: (List.replicate wrapTabs '\t' ++ ['X'])))
      (validSymbols true true)).scanner.indents = [] := by
  have hloop : scanLoop false 0 (-1) ('\n' :: (List.replicate wrapTabs '\t' ++ ['X'])) =
      ⟨true, 0, -1, ['X']⟩ := by
    rw [scanLoop_newline]
    have h := scanLoop_indentation (List.replicate wrapTabs '\t')
      (fun c hc => Or.inr (List.eq_of_mem_replicate hc)) true 0 (-1) ['X']
    have e0 : 0 % UINT32_MOD = 0 := by unfold UINT32_MOD; rfl
    have e1 : List.count '\t' (List.replicate wrapTabs '\t') = wrapTabs := by
      rw [List.count_replicate]; simp
    have e2 : List.count ' ' (List.replicate wrapTabs '\t') = 0 := by
      rw [List.count_replicate]; simp
    have e3 : (0 + 0 + 8 * wrapTabs) % UINT32_MOD = 0 := by unfold UINT32_MOD wrapTabs; rfl
    rw [e0, e1, e2, e3] at h
    rw [h, scanLoop_stop _ _ _ _ _ (by decide) (by decide) (by decide) (by decide) (by decide)]
  have hd := scan_decline tree_sitter_rcl_external_scanner_create
    (lexerAt ('\n' :: (List.replicate wrapTabs '\t' ++ ['X']))) (validSymbols true true)
    (by simp only [lexerAt]; rw [hloop]; simp [lookahead])
    (by simp only [lexerAt]; rw [hloop]; simp)
    (by simp only [lexerAt]; rw [hloop]
        simp [tree_sitter_rcl_external_scanner_create, Scanner.indent_length])
  refine ⟨rfl, rfl, by rw [hloop], ?_, ?_⟩
  · simp [ScanResult.emitted, hd.1]
  · rw [hd.2]; rfl

/-- C9 (amended): for a line that follows a line feed, begins with `s` spaces
and `t` tabs in any order and continues with a content character, the width
`scan` uses is `(s + 8 * t) mod 2^32`, a flat 8 per tab with no rounding to a
tab stop, which is `s + 8 * t` whenever that is below 2^32; from the empty
stack with INDENT acceptable, `scan` on `"\n\tX"` pushes 8, on `"\n\t X"` pushes 9
and on `"\n  \tX"` pushes 10. -/
theorem tab_expansion (ws : List Char) (hws : ∀ c ∈ ws, c = ' ' ∨ c = '\t')
    (c : Char) (rest : List Char)
    (h1 : c ≠ '\n') (h2 : c ≠ ' ') (h3 : c ≠ '\t') (h4 : c ≠ '\r') (h5 : c ≠ '#')
    (f : Bool) (n : Nat) (fc : Int) :
    (scanLoop f n fc ('\n' :: (ws ++ c :: rest))).indent_length =
      (ws.count ' ' + 8 * ws.count '\t') % UINT32_MOD ∧
    (scanLoop f n fc ('\n' :: (ws ++ c :: rest))).input = c :: rest ∧
    (ws.count ' ' + 8 * ws.count '\t' < UINT32_MOD →
      (scanLoop f n fc ('\n' :: (ws ++ c :: rest))).indent_length =
        ws.count ' ' + 8 * ws.count '\t') ∧
    (tree_sitter_rcl_external_scanner_scan tree_sitter_rcl_external_scanner_create
      (lexerAt ['\n', '\t', 'X']) (validSymbols true false)).scanner.indents = [8] ∧
    (tree_sitter_rcl_external_scanner_scan tree_sitter_rcl_external_scanner_create
      (lexerAt ['\n', '\t', ' ', 'X']) (validSymbols true false)).scanner.indents = [9] ∧
    (tree_sitter_rcl_external_scanner_scan tree_sitter_rcl_external_scanner_create
      (lexerAt ['\n', ' ', ' ', '\t', 'X']) (validSymbols true false)).scanner.indents = [10] := by
  have hloop : scanLoop f n fc ('\n' :: (ws ++ c :: rest)) =
      ⟨true, (ws.count ' ' + 8 * ws.count '\t') % UINT32_MOD, fc, c :: rest⟩ := by
    rw [scanLoop_newline]
    have h := scanLoop_indentation ws hws true 0 fc (c :: rest)
    have e0 : 0 % UINT32_MOD = 0 := by unfold UINT32_MOD; rfl
    rw [e0, Nat.zero_add] at h
    rw [h, scanLoop_stop _ _ _ _ _ h1 h2 h3 h4 h5]
  rw [hloop]
  refine ⟨rfl, rfl, fun hlt => Nat.mod_eq_of_lt hlt, ?_, ?_, ?_⟩ <;>
    simp [tree_sitter_rcl_external_scanner_scan, tree_sitter_rcl_external_scanner_create,
      mark_end, lexerAt, scanLoop, lookahead, advance, UINT32_MOD, validSymbols,
      current_indent_length, Scanner.indent_length]

/-- Witness of C9 (amended): two spaces and a tab before the content character
`X` give the width 10. -/
theorem tab_expansion_witness :
    (scanLoop false 0 (-1) ('\n' :: ([' ', ' ', '\t'] ++ 'X' :: []))).indent_length =
      (List.count ' ' [' ', ' ', '\t'] + 8 * List.count '\t' [' ', ' ', '\t']) % UINT32_MOD ∧
    (List.count ' ' [' ', ' ', '\t'] + 8 * List.count '\t' [' ', ' ', '\t']) % UINT32_MOD = 10 :=
  ⟨(tab_expansion [' ', ' ', '\t'] (by decide) 'X' [] (by decide) (by decide) (by decide)
      (by decide) (by decide) false 0 (-1)).1, by decide⟩

/-- C10: for every scanner, valid-symbol set and text that begins with a line
feed, blank lines (each some spaces closed by a line feed) put directly after
that line feed change neither what `scan` returns and emits, nor the scanner it
leaves, nor the character it stops on; and when the line that follows has the
width of the top of the stack (0 for the empty stack) and starts with a content
character, `scan` declines and leaves the scanner as it was. -/
theorem blank_line_neutrality (s : Scanner) (v : TokenType → Bool) (rest : List Char)
    (spaces : List Nat) (l1 l2 : TSLexer)
    (hl1 : l1.input = '\n' :: (blankLines spaces ++ rest)) (hl2 : l2.input = '\n' :: rest) :
    (tree_sitter_rcl_external_scanner_scan s l1 v).returned =
      (tree_sitter_rcl_external_scanner_scan s l2 v).returned ∧
    (tree_sitter_rcl_external_scanner_scan s l1 v).emitted =
      (tree_sitter_rcl_external_scanner_scan s l2 v).emitted ∧
    (tree_sitter_rcl_external_scanner_scan s l1 v).scanner =
      (tree_sitter_rcl_external_scanner_scan s l2 v).scanner ∧
    (tree_sitter_rcl_external_scanner_scan s l1 v).lexer.input =
      (tree_sitter_rcl_external_scanner_scan s l2 v).lexer.input ∧
    (lookahead (scanLoop false 0 (-1) l2.input).input ≠ Char.ofNat 0 →
      (scanLoop false 0 (-1) l2.input).indent_length = current_indent_length s →
      (tree_sitter_rcl_external_scanner_scan s l1 v).emitted = none ∧
      (tree_sitter_rcl_external_scanner_scan s l1 v).scanner = s) := by
  have hloop : scanLoop false 0 (-1) l1.input = scanLoop false 0 (-1) l2.input := by
    rw [hl1, hl2, scanLoop_newline, scanLoop_newline, scanLoop_blankLines]
  have hcg := scan_congr s l1 l2 v hloop
  refine ⟨hcg.1, hcg.2.1, hcg.2.2.1, hcg.2.2.2, fun hc hw => ?_⟩
  have hd := scan_decline s l2 v (fun h => hc h.1) (by intro h; omega) (by intro h; omega)
  rw [hcg.2.1, hcg.2.2.1]
  exact ⟨by simp [ScanResult.emitted, hd.1], hd.2⟩

/-- Witness of C10: in `"A\n\nA\n"`, at the first line feed, with the empty stack:
the blank line changes nothing and `scan` declines. -/
theorem blank_line_neutrality_witness :
    (tree_sitter_rcl_external_scanner_scan tree_sitter_rcl_external_scanner_create
      (lexerAt ['\n', '\n', 'A', '\n']) (validSymbols true true)).emitted = none ∧
    (tree_sitter_rcl_external_scanner_scan tree_sitter_rcl_external_scanner_create
      (lexerAt ['\n', '\n', 'A', '\n']) (validSymbols true true)).scanner =
      tree_sitter_rcl_external_scanner_create :=
  (blank_line_neutrality tree_sitter_rcl_external_scanner_create (validSymbols true true)
    ['A', '\n'] [0] (lexerAt ['\n', '\n', 'A', '\n']) (lexerAt ['\n', 'A', '\n'])
    (by simp [lexerAt, blankLines]) (by simp [lexerAt])).2.2.2.2
    (by simp [lexerAt, scanLoop, lookahead, advance])
    (by simp [lexerAt, scanLoop, lookahead, advance, current_indent_length,
      tree_sitter_rcl_external_scanner_create, Scanner.indent_length])

end RclScanner

namespace RclScannerDebug

/-! ## The debug variant: helper lemmas -/

theorem debug_scanLoop_nil (n : Nat) : scanLoop n [] = ⟨false, n, []⟩ := by
  rw [scanLoop]
  simp [RclScanner.lookahead]

/-- With NEWLINE acceptable and a line feed or carriage return under the cursor,
the call emits NEWLINE, leaves the scanner alone, and consumes that character
and, whatever that character was, a line feed that follows it. -/
theorem debug_newline_consumed (s : RclScanner.Scanner) (c : Char) (cs : List Char)
    (col : Nat) (v : TokenType → Bool) (hv : v TokenType.NEWLINE = true)
    (hc : c = '\n' ∨ c = '\r') :
    (tree_sitter_rcl_external_scanner_scan s (lexerAt (c :: cs) col) v).emitted =
      some TokenType.NEWLINE ∧
    (tree_sitter_rcl_external_scanner_scan s (lexerAt (c :: cs) col) v).scanner = s ∧
    consumed (c :: cs) (tree_sitter_rcl_external_scanner_scan s (lexerAt (c :: cs) col) v) =
      (if RclScanner.lookahead cs = '\n' then [c, '\n'] else [c]) := by
  cases cs with
  | nil =>
    simp [tree_sitter_rcl_external_scanner_scan, lexerAt, hv, hc, ScanResult.emitted, consumed,
      RclScanner.advance, RclScanner.lookahead]
  | cons d ds =>
    have e : ds.length + 1 + 1 - ds.length = 2 := by omega
    have e2 : ds.length + 1 + 1 - (ds.length + 1) = 1 := by omega
    by_cases hd : d = '\n'
    · subst hd
      simp [tree_sitter_rcl_external_scanner_scan, lexerAt, hv, hc, ScanResult.emitted,
        consumed, RclScanner.advance, RclScanner.lookahead, e]
    · simp [tree_sitter_rcl_external_scanner_scan, lexerAt, hv, hc, ScanResult.emitted,
        consumed, RclScanner.advance, RclScanner.lookahead, hd, e2]

/-- At the end of the input, in column 0, with NEWLINE not acceptable and INDENT
or DEDENT acceptable, a call pops the last entry and emits DEDENT whenever the
array holds an entry, and declines when it holds none. -/
theorem debug_scan_at_eof (s : RclScanner.Scanner) (v : TokenType → Bool)
    (hn : v TokenType.NEWLINE = false)
    (hid : v TokenType.INDENT = true ∨ v TokenType.DEDENT = true) :
    (0 < s.indent_length →
      (tree_sitter_rcl_external_scanner_scan s (lexerAt [] 0) v).emitted =
        some TokenType.DEDENT ∧
      (tree_sitter_rcl_external_scanner_scan s (lexerAt [] 0) v).scanner =
        ⟨s.indents.dropLast, s.indent_capacity⟩) ∧
    (s.indent_length = 0 →
      (tree_sitter_rcl_external_scanner_scan s (lexerAt [] 0) v).emitted = none ∧
      (tree_sitter_rcl_external_scanner_scan s (lexerAt [] 0) v).scanner = s) := by
  have hg : ¬ (v TokenType.INDENT = false ∧ v TokenType.DEDENT = false) := by
    rcases hid with h | h <;> simp [h]
  constructor
  · intro hl
    simp [tree_sitter_rcl_external_scanner_scan, lexerAt, hn, hg, debug_scanLoop_nil,
      RclScanner.lookahead, hl, ScanResult.emitted]
  · intro hl
    simp [tree_sitter_rcl_external_scanner_scan, lexerAt, hn, hg, debug_scanLoop_nil,
      RclScanner.lookahead, hl, ScanResult.emitted]

/-- At the end of the input every entry of the array, the implicit level of
width 0 included, is popped with a DEDENT, one per call; the call after the last
pop declines. -/
theorem debug_eof_run (v : TokenType → Bool) (hn : v TokenType.NEWLINE = false)
    (hid : v TokenType.INDENT = true ∨ v TokenType.DEDENT = true)
    (indents : List Nat) : ∀ (cap : Nat),
    (∀ k, k < indents.length →
      (nthCallAtEof v k ⟨indents, cap⟩).emitted = some TokenType.DEDENT ∧
      (nthCallAtEof v k ⟨indents, cap⟩).scanner.indents =
        indents.take (indents.length - (k + 1))) ∧
    (nthCallAtEof v indents.length ⟨indents, cap⟩).emitted = none := by
  induction indents using List.reverseRecOn with
  | nil =>
    intro cap
    have h := (debug_scan_at_eof ⟨[], cap⟩ v hn hid).2 rfl
    exact ⟨fun k hk => absurd hk (by simp), h.1⟩
  | append_singleton init x ih =>
    intro cap
    have h := (debug_scan_at_eof ⟨init ++ [x], cap⟩ v hn hid).1
      (by simp [RclScanner.Scanner.indent_length])
    have hsc : (tree_sitter_rcl_external_scanner_scan ⟨init ++ [x], cap⟩ (lexerAt [] 0) v).scanner =
        ⟨init, cap⟩ := by
      rw [h.2]; simp
    have ih2 := ih cap
    refine ⟨fun k hk => ?_, ?_⟩
    · cases k with
      | zero =>
        simp only [nthCallAtEof]
        refine ⟨h.1, ?_⟩
        rw [hsc]
        exact (RclScanner.take_concat_length init x).symm
      | succ k =>
        simp only [nthCallAtEof]
        rw [hsc, RclScanner.take_concat_pred]
        exact ih2.1 k (by simpa using hk)
    · have e : (init ++ [x]).length = init.length + 1 := by simp
      rw [e]
      simp only [nthCallAtEof]
      rw [hsc]
      exact ih2.2

/-! ## The debug variant: claims -/

/-- C12: with NEWLINE acceptable and two line feeds under the cursor, the call
emits NEWLINE and the characters up to the marked token end are both line
feeds, two line breaks and not one. -/
theorem debug_newline_takes_two_line_feeds :
    (tree_sitter_rcl_external_scanner_scan tree_sitter_rcl_external_scanner_create
      (lexerAt ['\n', '\n', 'X'] 0) (validSymbols true true true)).emitted =
      some TokenType.NEWLINE ∧
    (tree_sitter_rcl_external_scanner_scan tree_sitter_rcl_external_scanner_create
      (lexerAt ['\n', '\n', 'X'] 0) (validSymbols true true true)).lexer.token_end =
      some ['X'] ∧
    consumed ['\n', '\n', 'X']
      (tree_sitter_rcl_external_scanner_scan tree_sitter_rcl_external_scanner_create
        (lexerAt ['\n', '\n', 'X'] 0) (validSymbols true true true)) = ['\n', '\n'] := by
  simp [tree_sitter_rcl_external_scanner_scan, lexerAt, validSymbols, RclScanner.lookahead,
    RclScanner.advance, ScanResult.emitted, consumed]

/-- C13: on the stack built by one INDENT of width 4, at the start of a line of
width 0, with INDENT acceptable and DEDENT not, the call returns no token and
yet leaves the stack one level shorter. -/
theorem debug_decline_pops_level :
    (tree_sitter_rcl_external_scanner_scan tree_sitter_rcl_external_scanner_create
      (lexerAt [' ', ' ', ' ', ' ', 'X'] 0) (validSymbols false true false)).scanner =
      ⟨[0, 4], 16⟩ ∧
    (tree_sitter_rcl_external_scanner_scan ⟨[0, 4], 16⟩ (lexerAt ['X'] 0)
      (validSymbols false true false)).returned = false ∧
    (tree_sitter_rcl_external_scanner_scan ⟨[0, 4], 16⟩ (lexerAt ['X'] 0)
      (validSymbols false true false)).scanner.indents = [0] := by
  refine ⟨?_, ?_, ?_⟩ <;>
    simp [tree_sitter_rcl_external_scanner_scan, tree_sitter_rcl_external_scanner_create,
      lexerAt, validSymbols, scanLoop, dedentLoop, RclScanner.lookahead, RclScanner.advance,
      RclScanner.UINT32_MOD, RclScanner.current_indent_length, RclScanner.Scanner.indent_length]

/-- C14: a scanner fresh from `create`, called in column 0 at the end of the
input with DEDENT acceptable and NEWLINE not, emits DEDENT and pops the
implicit level of width 0, and declines only on the next call; after one level
was pushed, two successive calls emit DEDENT, and the third declines. -/
theorem debug_fresh_scanner_dedents_at_eof :
    (nthCallAtEof (validSymbols false false true) 0
      tree_sitter_rcl_external_scanner_create).emitted = some TokenType.DEDENT ∧
    (nthCallAtEof (validSymbols false false true) 0
      tree_sitter_rcl_external_scanner_create).scanner.indents = [] ∧
    (nthCallAtEof (validSymbols false false true) 1
      tree_sitter_rcl_external_scanner_create).emitted = none ∧
    (nthCallAtEof (validSymbols false false true) 0 ⟨[0, 4], 16⟩).emitted =
      some TokenType.DEDENT ∧
    (nthCallAtEof (validSymbols false false true) 1 ⟨[0, 4], 16⟩).emitted =
      some TokenType.DEDENT ∧
    (nthCallAtEof (validSymbols false false true) 2 ⟨[0, 4], 16⟩).emitted = none := by
  have h1 := debug_eof_run (validSymbols false false true) rfl (Or.inr rfl) [0] 16
  have h2 := debug_eof_run (validSymbols false false true) rfl (Or.inr rfl) [0, 4] 16
  refine ⟨(h1.1 0 (by decide)).1, ?_, h1.2, (h2.1 0 (by decide)).1, (h2.1 1 (by decide)).1,
    h2.2⟩
  have := (h1.1 0 (by decide)).2
  simpa using this

end RclScannerDebug

namespace RclScanner

/-! ## Push and pop -/

/-- What one call does to the stack, by the token it emits. -/
theorem scan_step (s : Scanner) (l : TSLexer) (v : TokenType → Bool) :
    ((tree_sitter_rcl_external_scanner_scan s l v).emitted = some TokenType.INDENT →
      (tree_sitter_rcl_external_scanner_scan s l v).scanner.indents =
        s.indents ++ [(scanLoop false 0 (-1) l.input).indent_length]) ∧
    ((tree_sitter_rcl_external_scanner_scan s l v).emitted = some TokenType.DEDENT →
      0 < s.indent_length ∧
      (tree_sitter_rcl_external_scanner_scan s l v).scanner.indents = s.indents.dropLast) ∧
    ((tree_sitter_rcl_external_scanner_scan s l v).emitted = none →
      (tree_sitter_rcl_external_scanner_scan s l v).scanner = s) := by
  by_cases hf : (scanLoop false 0 (-1) l.input).found_end_of_line = true
  · by_cases h0 : lookahead (scanLoop false 0 (-1) l.input).input = Char.ofNat 0 ∧
        0 < s.indent_length
    · have h := scan_eof s l v hf h0.1 h0.2
      have he : (tree_sitter_rcl_external_scanner_scan s l v).emitted =
          some TokenType.DEDENT := by
        simp [ScanResult.emitted, h.1, h.2.1]
      rw [he]
      refine ⟨fun x => by simp at x, fun _ => ⟨h0.2, by rw [h.2.2]⟩, fun x => by simp at x⟩
    · by_cases hi : v TokenType.INDENT = true ∧
          current_indent_length s < (scanLoop false 0 (-1) l.input).indent_length
      · have h := scan_indent s l v hf h0 hi.1 hi.2
        have he : (tree_sitter_rcl_external_scanner_scan s l v).emitted =
            some TokenType.INDENT := by
          simp [ScanResult.emitted, h.1, h.2.1]
        rw [he]
        refine ⟨fun _ => h.2.2, fun x => by simp at x, fun x => by simp at x⟩
      · by_cases hd : v TokenType.DEDENT = true ∧
            (scanLoop false 0 (-1) l.input).indent_length < current_indent_length s ∧
            0 < s.indent_length
        · have h := scan_dedent s l v hf h0 hi hd.1 hd.2.1 hd.2.2
          have he : (tree_sitter_rcl_external_scanner_scan s l v).emitted =
              some TokenType.DEDENT := by
            simp [ScanResult.emitted, h.1, h.2.1]
          rw [he]
          refine ⟨fun x => by simp at x, fun _ => ⟨hd.2.2, by rw [h.2.2]⟩,
            fun x => by simp at x⟩
        · have h := scan_decline s l v h0 hi hd
          have he : (tree_sitter_rcl_external_scanner_scan s l v).emitted = none := by
            simp [ScanResult.emitted, h.1]
          rw [he]
          refine ⟨fun x => by simp at x, fun x => by simp at x, fun _ => h.2⟩
  · have h := scan_not_found s l v (by simpa using hf)
    have he : (tree_sitter_rcl_external_scanner_scan s l v).emitted = none := by
      simp [ScanResult.emitted, h.1]
    rw [he]
    refine ⟨fun x => by simp at x, fun x => by simp at x, fun _ => h.2⟩

/-- Over a run of calls, the level count after the run plus the number of
DEDENTs is the level count before the run plus the number of INDENTs. -/
theorem runCalls_balance (calls : List (TSLexer × (TokenType → Bool))) : ∀ (s : Scanner),
    (runCalls s calls).2.indent_length + (runCalls s calls).1.count (some TokenType.DEDENT) =
      s.indent_length + (runCalls s calls).1.count (some TokenType.INDENT) := by
  induction calls with
  | nil => intro s; simp [runCalls]
  | cons c cs ih =>
    intro s
    obtain ⟨l, v⟩ := c
    have hstep := scan_step s l v
    have hrec := ih (tree_sitter_rcl_external_scanner_scan s l v).scanner
    simp only [runCalls]
    cases he : (tree_sitter_rcl_external_scanner_scan s l v).emitted with
    | none =>
      rw [hstep.2.2 he] at hrec ⊢
      simpa using hrec
    | some t =>
      cases t with
      | INDENT =>
        have h1 := hstep.1 he
        have hlen : (tree_sitter_rcl_external_scanner_scan s l v).scanner.indent_length =
            s.indent_length + 1 := by
          simp [Scanner.indent_length, h1]
        rw [List.count_cons_self, List.count_cons_of_ne (by decide)]
        omega
      | DEDENT =>
        have h1 := hstep.2.1 he
        have hlen : (tree_sitter_rcl_external_scanner_scan s l v).scanner.indent_length + 1 =
            s.indent_length := by
          have := h1.1
          simp only [Scanner.indent_length, h1.2, List.length_dropLast] at this ⊢
          omega
        rw [List.count_cons_self, List.count_cons_of_ne (by decide)]
        omega

/-! ## Widths and carriage returns -/

/-- A run of spaces, tabs and carriage returns adds 1 for each space and 8 for
each tab to the counter, modulo 2^32; a carriage return adds nothing and resets
nothing. -/
theorem scanLoop_indentation_cr (ws : List Char)
    (hws : ∀ c ∈ ws, c = ' ' ∨ c = '\t' ∨ c = '\r')
    (f : Bool) (n : Nat) (fc : Int) (rest : List Char) :
    scanLoop f (n % UINT32_MOD) fc (ws ++ rest) =
      scanLoop f ((n + ws.count ' ' + 8 * ws.count '\t') % UINT32_MOD) fc rest := by
  induction ws generalizing n with
  | nil => simp
  | cons c cs ih =>
    have hcs : ∀ d ∈ cs, d = ' ' ∨ d = '\t' ∨ d = '\r' :=
      fun d hd => hws d (List.mem_cons_of_mem c hd)
    rcases hws c (List.mem_cons_self c cs) with hc | hc | hc
    · subst hc
      rw [List.cons_append, scanLoop_space]
      have e : (n % UINT32_MOD + 1) % UINT32_MOD = (n + 1) % UINT32_MOD := by
        unfold UINT32_MOD; omega
      rw [e, ih hcs (n + 1)]
      have e2 : List.count ' ' (' ' :: cs) = List.count ' ' cs + 1 := by simp
      have e3 : List.count '\t' (' ' :: cs) = List.count '\t' cs := by
        rw [List.count_cons_of_ne (by decide)]
      rw [e2, e3]
      congr 2
      omega
    · subst hc
      rw [List.cons_append, scanLoop_tab]
      have e : (n % UINT32_MOD + 8) % UINT32_MOD = (n + 8) % UINT32_MOD := by
        unfold UINT32_MOD; omega
      rw [e, ih hcs (n + 8)]
      have e2 : List.count '\t' ('\t' :: cs) = List.count '\t' cs + 1 := by simp
      have e3 : List.count ' ' ('\t' :: cs) = List.count ' ' cs := by
        rw [List.count_cons_of_ne (by decide)]
      rw [e2, e3]
      congr 2
      omega
    · subst hc
      rw [List.cons_append, scanLoop_return, ih hcs n]
      have e2 : List.count '\t' ('\r' :: cs) = List.count '\t' cs := by
        rw [List.count_cons_of_ne (by decide)]
      have e3 : List.count ' ' ('\r' :: cs) = List.count ' ' cs := by
        rw [List.count_cons_of_ne (by decide)]
      rw [e2, e3]

/-! ## Claims, continued -/

/-- C11: a call that emits INDENT raises the level count by exactly one and
leaves the entries below the new one untouched; a call that emits DEDENT lowers
it by exactly one and leaves the lower entries untouched; a call that declines
leaves the stack unchanged.  Hence over any run of calls the level count
changes by the number of INDENTs minus the number of DEDENTs, and when the
depth is back at its earlier value the two numbers are equal. -/
theorem push_pop_symmetry (s : Scanner) (l : TSLexer) (v : TokenType → Bool)
    (calls : List (TSLexer × (TokenType → Bool))) :
    ((tree_sitter_rcl_external_scanner_scan s l v).emitted = some TokenType.INDENT →
      (tree_sitter_rcl_external_scanner_scan s l v).scanner.indent_length =
        s.indent_length + 1 ∧
      (tree_sitter_rcl_external_scanner_scan s l v).scanner.indents.take s.indent_length =
        s.indents) ∧
    ((tree_sitter_rcl_external_scanner_scan s l v).emitted = some TokenType.DEDENT →
      (tree_sitter_rcl_external_scanner_scan s l v).scanner.indent_length + 1 =
        s.indent_length ∧
      (tree_sitter_rcl_external_scanner_scan s l v).scanner.indents =
        s.indents.take (s.indent_length - 1)) ∧
    ((tree_sitter_rcl_external_scanner_scan s l v).emitted = none →
      (tree_sitter_rcl_external_scanner_scan s l v).scanner.indents = s.indents) ∧
    ((runCalls s calls).2.indent_length + (runCalls s calls).1.count (some TokenType.DEDENT) =
      s.indent_length + (runCalls s calls).1.count (some TokenType.INDENT)) ∧
    ((runCalls s calls).2.indent_length = s.indent_length →
      (runCalls s calls).1.count (some TokenType.INDENT) =
        (runCalls s calls).1.count (some TokenType.DEDENT)) := by
  have hstep := scan_step s l v
  have hbal := runCalls_balance calls s
  refine ⟨fun he => ?_, fun he => ?_, fun he => ?_, hbal, fun h => by omega⟩
  · have h1 := hstep.1 he
    simp [Scanner.indent_length, h1]
  · have h1 := hstep.2.1 he
    have hpos : 0 < s.indents.length := h1.1
    refine ⟨?_, ?_⟩
    · simp only [Scanner.indent_length, h1.2, List.length_dropLast]
      omega
    · rw [h1.2]
      exact List.dropLast_eq_take s.indents
  · rw [hstep.2.2 he]

/-- Witness of C11: two INDENTs, a decline and two DEDENTs on the text of the
worked scenario bring the depth back to 0. -/
theorem push_pop_symmetry_witness :
    (runCalls tree_sitter_rcl_external_scanner_create
      [(lexerAt (scenario.drop 1), validSymbols true true),
       (lexerAt (scenario.drop 5), validSymbols true true),
       (lexerAt (scenario.drop 11), validSymbols true true),
       (lexerAt (scenario.drop 11), validSymbols true true),
       (lexerAt (scenario.drop 15), validSymbols true true)]).1 =
      [some TokenType.INDENT, some TokenType.INDENT, some TokenType.DEDENT, none,
       some TokenType.DEDENT] ∧
    (runCalls tree_sitter_rcl_external_scanner_create
      [(lexerAt (scenario.drop 1), validSymbols true true),
       (lexerAt (scenario.drop 5), validSymbols true true),
       (lexerAt (scenario.drop 11), validSymbols true true),
       (lexerAt (scenario.drop 11), validSymbols true true),
       (lexerAt (scenario.drop 15), validSymbols true true)]).2.indent_length +
      (runCalls tree_sitter_rcl_external_scanner_create
      [(lexerAt (scenario.drop 1), validSymbols true true),
       (lexerAt (scenario.drop 5), validSymbols true true),
       (lexerAt (scenario.drop 11), validSymbols true true),
       (lexerAt (scenario.drop 11), validSymbols true true),
       (lexerAt (scenario.drop 15), validSymbols true true)]).1.count (some TokenType.DEDENT) =
      tree_sitter_rcl_external_scanner_create.indent_length +
      (runCalls tree_sitter_rcl_external_scanner_create
      [(lexerAt (scenario.drop 1), validSymbols true true),
       (lexerAt (scenario.drop 5), validSymbols true true),
       (lexerAt (scenario.drop 11), validSymbols true true),
       (lexerAt (scenario.drop 11), validSymbols true true),
       (lexerAt (scenario.drop 15), validSymbols true true)]).1.count (some TokenType.INDENT) :=
  ⟨by simp [runCalls, scenario, tree_sitter_rcl_external_scanner_scan,
      tree_sitter_rcl_external_scanner_create, mark_end, lexerAt, scanLoop, lookahead, advance,
      UINT32_MOD, validSymbols, ScanResult.emitted, current_indent_length,
      Scanner.indent_length],
   (push_pop_symmetry tree_sitter_rcl_external_scanner_create (lexerAt [])
      (validSymbols true true) _).2.2.2.1⟩

/-- C15: on the empty stack, a line feed followed by two spaces and the end of
the input, with INDENT acceptable: the loop stops at the end of the input
without having met a content character, and `scan` emits INDENT and pushes 2. -/
theorem scan_indent_at_end_of_input :
    (scanLoop false 0 (-1) ['\n', ' ', ' ']).input = [] ∧
    (tree_sitter_rcl_external_scanner_scan tree_sitter_rcl_external_scanner_create
      (lexerAt ['\n', ' ', ' ']) (validSymbols true true)).emitted = some TokenType.INDENT ∧
    (tree_sitter_rcl_external_scanner_scan tree_sitter_rcl_external_scanner_create
      (lexerAt ['\n', ' ', ' ']) (validSymbols true true)).scanner.indents = [2] := by
  refine ⟨?_, ?_, ?_⟩ <;>
    simp [tree_sitter_rcl_external_scanner_scan, tree_sitter_rcl_external_scanner_create,
      mark_end, lexerAt, scanLoop, lookahead, advance, UINT32_MOD, validSymbols,
      ScanResult.emitted, current_indent_length, Scanner.indent_length]

/-- C17 (as stated, refuted): two spaces before a lone carriage return are
counted in the width of the line after it; the line `"  X"` that follows gets
the width 4, and on the stack `[2]` the call emits INDENT and pushes 4. -/
theorem carriage_return_keeps_width :
    (scanLoop false 0 (-1) ['\n', ' ', ' ', '\r', ' ', ' ', 'X']).indent_length = 4 ∧
    (tree_sitter_rcl_external_scanner_scan ⟨[2], 1⟩
      (lexerAt ['\n', ' ', ' ', '\r', ' ', ' ', 'X']) (validSymbols true true)).emitted =
      some TokenType.INDENT ∧
    (tree_sitter_rcl_external_scanner_scan ⟨[2], 1⟩
      (lexerAt ['\n', ' ', ' ', '\r', ' ', ' ', 'X'])
      (validSymbols true true)).scanner.indents = [2, 4] := by
  refine ⟨?_, ?_, ?_⟩ <;>
    simp [tree_sitter_rcl_external_scanner_scan, mark_end, lexerAt, scanLoop, lookahead,
      advance, UINT32_MOD, validSymbols, ScanResult.emitted, current_indent_length,
      Scanner.indent_length]

/-- C17 (amended): a line feed, alone or after a carriage return, resets the
width counter, whatever it held: the width of the line that follows counts,
modulo 2^32, only the spaces and tabs after the line feed.  A carriage return
that no line feed follows is skipped; it neither resets the counter nor counts
as a line break. -/
theorem line_feed_resets_width (ws : List Char)
    (hws : ∀ c ∈ ws, c = ' ' ∨ c = '\t' ∨ c = '\r')
    (c : Char) (rest : List Char)
    (h1 : c ≠ '\n') (h2 : c ≠ ' ') (h3 : c ≠ '\t') (h4 : c ≠ '\r') (h5 : c ≠ '#')
    (f : Bool) (n : Nat) (fc : Int) :
    scanLoop f n fc ('\n' :: (ws ++ c :: rest)) =
      ⟨true, (ws.count ' ' + 8 * ws.count '\t') % UINT32_MOD, fc, c :: rest⟩ ∧
    scanLoop f n fc ('\r' :: '\n' :: (ws ++ c :: rest)) =
      ⟨true, (ws.count ' ' + 8 * ws.count '\t') % UINT32_MOD, fc, c :: rest⟩ ∧
    scanLoop f (n % UINT32_MOD) fc ('\r' :: (ws ++ c :: rest)) =
      ⟨f, (n + ws.count ' ' + 8 * ws.count '\t') % UINT32_MOD, fc, c :: rest⟩ := by
  have e0 : 0 % UINT32_MOD = 0 := by unfold UINT32_MOD; rfl
  have hlf : scanLoop f n fc ('\n' :: (ws ++ c :: rest)) =
      ⟨true, (ws.count ' ' + 8 * ws.count '\t') % UINT32_MOD, fc, c :: rest⟩ := by
    rw [scanLoop_newline]
    have h := scanLoop_indentation_cr ws hws true 0 fc (c :: rest)
    rw [e0, Nat.zero_add] at h
    rw [h, scanLoop_stop _ _ _ _ _ h1 h2 h3 h4 h5]
  refine ⟨hlf, ?_, ?_⟩
  · rw [scanLoop_return, hlf]
  · rw [scanLoop_return, scanLoop_indentation_cr ws hws f n fc (c :: rest),
      scanLoop_stop _ _ _ _ _ h1 h2 h3 h4 h5]

/-- Witness of C17 (amended): three spaces, a line feed, two spaces and `X`;
the width is 2. -/
theorem line_feed_resets_width_witness :
    scanLoop false 3 (-1) ('\n' :: ([' ', ' '] ++ 'X' :: [])) =
      ⟨true, (List.count ' ' [' ', ' '] + 8 * List.count '\t' [' ', ' ']) % UINT32_MOD, -1,
        'X' :: []⟩ ∧
    (List.count ' ' [' ', ' '] + 8 * List.count '\t' [' ', ' ']) % UINT32_MOD = 2 :=
  ⟨(line_feed_resets_width [' ', ' '] (by decide) 'X' [] (by decide) (by decide) (by decide)
      (by decide) (by decide) false 3 (-1)).1, by decide⟩

end RclScanner

namespace RclScanner

/-! ## Comments -/

theorem skipComment_length_le (cs : List Char) : (skipComment cs).length ≤ cs.length := by
  induction cs with
  | nil => simp [skipComment]
  | cons c cs ih =>
    unfold skipComment
    split
    · exact Nat.le_succ_of_le ih
    · exact Nat.le_refl _

theorem skipComment_stop (rest : List Char)
    (hrest : rest = [] ∨ lookahead rest = '\n' ∨ lookahead rest = Char.ofNat 0) :
    skipComment rest = rest := by
  cases rest with
  | nil => simp [skipComment]
  | cons d ds =>
    have hd : d = '\n' ∨ d = Char.ofNat 0 := by
      rcases hrest with h | h | h
      · simp at h
      · exact Or.inl h
      · exact Or.inr h
    unfold skipComment
    rw [if_neg]
    intro hc
    rcases hd with h | h
    · exact hc.2 h
    · exact hc.1 h

/-- The comment loop consumes a comment body up to the line feed or the end of
the input that closes it. -/
theorem skipComment_append (body rest : List Char)
    (hbody : ∀ c ∈ body, c ≠ '\n' ∧ c ≠ Char.ofNat 0)
    (hrest : rest = [] ∨ lookahead rest = '\n' ∨ lookahead rest = Char.ofNat 0) :
    skipComment (body ++ rest) = rest := by
  induction body with
  | nil => simpa using skipComment_stop rest hrest
  | cons c cs ih =>
    have hc := hbody c (List.mem_cons_self c cs)
    rw [List.cons_append]
    unfold skipComment
    rw [if_pos ⟨hc.2, hc.1⟩]
    exact ih (fun d hd => hbody d (List.mem_cons_of_mem c hd))

/-- The variable `first_comment_indent_length` has no influence on what else
the loop computes. -/
theorem scanLoop_first_comment (inp : List Char) : ∀ (f : Bool) (n : Nat) (fc fc2 : Int),
    (scanLoop f n fc inp).found_end_of_line = (scanLoop f n fc2 inp).found_end_of_line ∧
    (scanLoop f n fc inp).indent_length = (scanLoop f n fc2 inp).indent_length ∧
    (scanLoop f n fc inp).input = (scanLoop f n fc2 inp).input := by
  generalize hlen : inp.length = k
  induction k using Nat.strong_induction_on generalizing inp with
  | _ k ih =>
    intro f n fc fc2
    cases inp with
    | nil => simp [scanLoop_nil]
    | cons c cs =>
      have hk : cs.length < k := by rw [← hlen]; simp
      by_cases h1 : c = '\n'
      · subst h1
        rw [scanLoop_newline, scanLoop_newline]
        exact ih cs.length hk cs rfl true 0 fc fc2
      by_cases h2 : c = ' '
      · subst h2
        rw [scanLoop_space, scanLoop_space]
        exact ih cs.length hk cs rfl f _ fc fc2
      by_cases h3 : c = '\t'
      · subst h3
        rw [scanLoop_tab, scanLoop_tab]
        exact ih cs.length hk cs rfl f _ fc fc2
      by_cases h4 : c = '\r'
      · subst h4
        rw [scanLoop_return, scanLoop_return]
        exact ih cs.length hk cs rfl f n fc fc2
      by_cases h5 : c = '#'
      · subst h5
        rw [scanLoop_comment, scanLoop_comment]
        have hle := skipComment_length_le cs
        exact ih (skipComment cs).length (by omega) (skipComment cs) rfl f n _ _
      · rw [scanLoop_stop _ _ _ _ _ h1 h2 h3 h4 h5, scanLoop_stop _ _ _ _ _ h1 h2 h3 h4 h5]
        exact ⟨rfl, rfl, rfl⟩

/-- Deleting a comment that the loop meets after a skipped prefix changes
neither the flag, nor the width, nor the stopping place of the loop. -/
theorem scanLoop_delete_comment (pre body rest : List Char) (hpre : Skipped pre)
    (hbody : ∀ c ∈ body, c ≠ '\n' ∧ c ≠ Char.ofNat 0)
    (hrest : rest = [] ∨ lookahead rest = '\n' ∨ lookahead rest = Char.ofNat 0) :
    ∀ (f : Bool) (n : Nat) (fc fc2 : Int),
    (scanLoop f n fc (pre ++ '#' :: (body ++ rest))).found_end_of_line =
      (scanLoop f n fc2 (pre ++ rest)).found_end_of_line ∧
    (scanLoop f n fc (pre ++ '#' :: (body ++ rest))).indent_length =
      (scanLoop f n fc2 (pre ++ rest)).indent_length ∧
    (scanLoop f n fc (pre ++ '#' :: (body ++ rest))).input =
      (scanLoop f n fc2 (pre ++ rest)).input := by
  induction hpre with
  | nil =>
    intro f n fc fc2
    simp only [List.nil_append]
    rw [scanLoop_comment, skipComment_append body rest hbody hrest]
    exact scanLoop_first_comment rest f n _ fc2
  | blank c p hc _ ih =>
    intro f n fc fc2
    simp only [List.cons_append]
    rcases hc with h | h | h | h
    · subst h
      rw [scanLoop_newline, scanLoop_newline]
      exact ih true 0 fc fc2
    · subst h
      rw [scanLoop_space, scanLoop_space]
      exact ih f _ fc fc2
    · subst h
      rw [scanLoop_tab, scanLoop_tab]
      exact ih f _ fc fc2
    · subst h
      rw [scanLoop_return, scanLoop_return]
      exact ih f n fc fc2
  | comment b p hb _ ih =>
    intro f n fc fc2
    have e1 : ('#' :: (b ++ '\n' :: p)) ++ '#' :: (body ++ rest) =
        '#' :: (b ++ '\n' :: (p ++ '#' :: (body ++ rest))) := by simp
    have e2 : ('#' :: (b ++ '\n' :: p)) ++ rest = '#' :: (b ++ '\n' :: (p ++ rest)) := by simp
    rw [e1, e2, scanLoop_comment, scanLoop_comment,
      skipComment_append b ('\n' :: (p ++ '#' :: (body ++ rest))) hb (Or.inr (Or.inl rfl)),
      skipComment_append b ('\n' :: (p ++ rest)) hb (Or.inr (Or.inl rfl)),
      scanLoop_newline, scanLoop_newline]
    exact ih true 0 _ _

/-- What a call returns, and the scanner and cursor it leaves, depend on the
text only through the flag, the width and the stopping place of the loop. -/
theorem scan_congr_outcome (s : Scanner) (l1 l2 : TSLexer) (v : TokenType → Bool)
    (hf : (scanLoop false 0 (-1) l1.input).found_end_of_line =
      (scanLoop false 0 (-1) l2.input).found_end_of_line)
    (hn : (scanLoop false 0 (-1) l1.input).indent_length =
      (scanLoop false 0 (-1) l2.input).indent_length)
    (hi : (scanLoop false 0 (-1) l1.input).input = (scanLoop false 0 (-1) l2.input).input) :
    (tree_sitter_rcl_external_scanner_scan s l1 v).returned =
      (tree_sitter_rcl_external_scanner_scan s l2 v).returned ∧
    (tree_sitter_rcl_external_scanner_scan s l1 v).emitted =
      (tree_sitter_rcl_external_scanner_scan s l2 v).emitted ∧
    (tree_sitter_rcl_external_scanner_scan s l1 v).scanner =
      (tree_sitter_rcl_external_scanner_scan s l2 v).scanner ∧
    (tree_sitter_rcl_external_scanner_scan s l1 v).lexer.input =
      (tree_sitter_rcl_external_scanner_scan s l2 v).lexer.input := by
  simp only [tree_sitter_rcl_external_scanner_scan, mark_end, hf, hn, hi, ScanResult.emitted]
  split_ifs <;> simp_all

/-- C16: for every scanner, valid-symbol set and text, deleting a comment that
the skip loop meets (the `#` and the characters after it, up to but not
including the line feed or the end of the input that closes it) changes neither
what `scan` returns and emits, nor the scanner it leaves, nor the character it
stops on; so a line that holds only a comment after its leading whitespace has
the effect of the line that holds only that whitespace. -/
theorem comment_deletion_neutral (s : Scanner) (v : TokenType → Bool)
    (pre body rest : List Char) (l1 l2 : TSLexer)
    (hpre : Skipped pre)
    (hbody : ∀ c ∈ body, c ≠ '\n' ∧ c ≠ Char.ofNat 0)
    (hrest : rest = [] ∨ lookahead rest = '\n' ∨ lookahead rest = Char.ofNat 0)
    (hl1 : l1.input = pre ++ '#' :: (body ++ rest)) (hl2 : l2.input = pre ++ rest) :
    (tree_sitter_rcl_external_scanner_scan s l1 v).returned =
      (tree_sitter_rcl_external_scanner_scan s l2 v).returned ∧
    (tree_sitter_rcl_external_scanner_scan s l1 v).emitted =
      (tree_sitter_rcl_external_scanner_scan s l2 v).emitted ∧
    (tree_sitter_rcl_external_scanner_scan s l1 v).scanner =
      (tree_sitter_rcl_external_scanner_scan s l2 v).scanner ∧
    (tree_sitter_rcl_external_scanner_scan s l1 v).lexer.input =
      (tree_sitter_rcl_external_scanner_scan s l2 v).lexer.input := by
  have h := scanLoop_delete_comment pre body rest hpre hbody hrest false 0 (-1) (-1)
  rw [← hl1, ← hl2] at h
  exact scan_congr_outcome s l1 l2 v h.1 h.2.1 h.2.2

/-- Witness of C16: on the empty stack, `"\n  # c\n  X"` and `"\n  \n  X"` both
give INDENT with the stack `[2]`. -/
theorem comment_deletion_neutral_witness :
    (tree_sitter_rcl_external_scanner_scan tree_sitter_rcl_external_scanner_create
      (lexerAt ['\n', ' ', ' ', '#', ' ', 'c', '\n', ' ', ' ', 'X'])
      (validSymbols true true)).emitted = some TokenType.INDENT ∧
    (tree_sitter_rcl_external_scanner_scan tree_sitter_rcl_external_scanner_create
      (lexerAt ['\n', ' ', ' ', '#', ' ', 'c', '\n', ' ', ' ', 'X'])
      (validSymbols true true)).scanner =
    (tree_sitter_rcl_external_scanner_scan tree_sitter_rcl_external_scanner_create
      (lexerAt ['\n', ' ', ' ', '\n', ' ', ' ', 'X']) (validSymbols true true)).scanner := by
  have h := comment_deletion_neutral tree_sitter_rcl_external_scanner_create
    (validSymbols true true) ['\n', ' ', ' '] [' ', 'c'] ['\n', ' ', ' ', 'X']
    (lexerAt ['\n', ' ', ' ', '#', ' ', 'c', '\n', ' ', ' ', 'X'])
    (lexerAt ['\n', ' ', ' ', '\n', ' ', ' ', 'X'])
    (Skipped.blank _ _ (Or.inl rfl)
      (Skipped.blank _ _ (Or.inr (Or.inl rfl))
        (Skipped.blank _ _ (Or.inr (Or.inl rfl)) Skipped.nil)))
    (by decide) (Or.inr (Or.inl rfl)) rfl rfl
  refine ⟨?_, h.2.2.1⟩
  rw [h.2.1]
  simp [tree_sitter_rcl_external_scanner_scan, tree_sitter_rcl_external_scanner_create,
    mark_end, lexerAt, scanLoop, lookahead, advance, UINT32_MOD, validSymbols,
    ScanResult.emitted, current_indent_length, Scanner.indent_length]

/-! ## Capacity -/

/-- The capacity after a call: grown when the call pushes onto a full array,
otherwise the capacity before the call. -/
theorem scan_capacity (s : Scanner) (l : TSLexer) (v : TokenType → Bool) :
    ((tree_sitter_rcl_external_scanner_scan s l v).emitted = some TokenType.INDENT ∧
      (tree_sitter_rcl_external_scanner_scan s l v).scanner.indent_capacity =
        (if s.indent_length = s.indent_capacity then
          (if s.indent_capacity ≠ 0 then (s.indent_capacity * 2) % UINT32_MOD else 1)
         else s.indent_capacity)) ∨
    ((tree_sitter_rcl_external_scanner_scan s l v).emitted ≠ some TokenType.INDENT ∧
      (tree_sitter_rcl_external_scanner_scan s l v).scanner.indent_capacity =
        s.indent_capacity) := by
  by_cases hf : (scanLoop false 0 (-1) l.input).found_end_of_line = true
  · by_cases h0 : lookahead (scanLoop false 0 (-1) l.input).input = Char.ofNat 0 ∧
        0 < s.indent_length
    · have h := scan_eof s l v hf h0.1 h0.2
      exact Or.inr ⟨by simp [ScanResult.emitted, h.1, h.2.1], by rw [h.2.2]⟩
    · by_cases hi : v TokenType.INDENT = true ∧
          current_indent_length s < (scanLoop false 0 (-1) l.input).indent_length
      · have h := scan_indent s l v hf h0 hi.1 hi.2
        refine Or.inl ⟨by simp [ScanResult.emitted, h.1, h.2.1], ?_⟩
        simp only [tree_sitter_rcl_external_scanner_scan, mark_end, hf, if_true]
        rw [if_neg h0, if_pos ⟨hi.1, hi.2⟩]
      · by_cases hd : v TokenType.DEDENT = true ∧
            (scanLoop false 0 (-1) l.input).indent_length < current_indent_length s ∧
            0 < s.indent_length
        · have h := scan_dedent s l v hf h0 hi hd.1 hd.2.1 hd.2.2
          exact Or.inr ⟨by simp [ScanResult.emitted, h.1, h.2.1], by rw [h.2.2]⟩
        · have h := scan_decline s l v h0 hi hd
          exact Or.inr ⟨by simp [ScanResult.emitted, h.1], by rw [h.2]⟩
  · have h := scan_not_found s l v (by simpa using hf)
    exact Or.inr ⟨by simp [ScanResult.emitted, h.1], by rw [h.2]⟩

/-- One call of `scan`, on a scanner whose level count is within a capacity
below 2^31: the capacity does not decrease, the level count stays within it,
and a push writes below the capacity, which was doubled, or set to 1, when the
array was full. -/
theorem scan_capacity_step (s : Scanner) (l : TSLexer) (v : TokenType → Bool)
    (hle : s.indent_length ≤ s.indent_capacity) (hcap : s.indent_capacity < 2147483648) :
    s.indent_capacity ≤ (tree_sitter_rcl_external_scanner_scan s l v).scanner.indent_capacity ∧
    (tree_sitter_rcl_external_scanner_scan s l v).scanner.indent_length ≤
      (tree_sitter_rcl_external_scanner_scan s l v).scanner.indent_capacity ∧
    ((tree_sitter_rcl_external_scanner_scan s l v).emitted = some TokenType.INDENT →
      s.indent_length < (tree_sitter_rcl_external_scanner_scan s l v).scanner.indent_capacity ∧
      (tree_sitter_rcl_external_scanner_scan s l v).scanner.indent_capacity =
        (if s.indent_length = s.indent_capacity then
          (if s.indent_capacity ≠ 0 then 2 * s.indent_capacity else 1)
         else s.indent_capacity)) := by
  have hstep := scan_step s l v
  rcases scan_capacity s l v with ⟨he, hc⟩ | ⟨he, hc⟩
  · have hi := hstep.1 he
    have hlen : (tree_sitter_rcl_external_scanner_scan s l v).scanner.indent_length =
        s.indent_length + 1 := by
      simp [Scanner.indent_length, hi]
    have hval : (tree_sitter_rcl_external_scanner_scan s l v).scanner.indent_capacity =
        (if s.indent_length = s.indent_capacity then
          (if s.indent_capacity ≠ 0 then 2 * s.indent_capacity else 1)
         else s.indent_capacity) := by
      rw [hc]
      have e : (s.indent_capacity * 2) % UINT32_MOD = 2 * s.indent_capacity := by
        unfold UINT32_MOD; omega
      rw [e]
    rw [hlen, hval]
    refine ⟨?_, ?_, fun _ => ⟨?_, rfl⟩⟩ <;> split_ifs <;> omega
  · rw [hc]
    refine ⟨Nat.le_refl _, ?_, fun h => absurd h he⟩
    cases hem : (tree_sitter_rcl_external_scanner_scan s l v).emitted with
    | none =>
      rw [hstep.2.2 hem]
      exact hle
    | some t =>
      cases t with
      | INDENT => exact absurd hem he
      | DEDENT =>
        have h1 := (hstep.2.1 hem).2
        simp only [Scanner.indent_length, h1, List.length_dropLast] at hle ⊢
        omega

theorem readIndents_length (buffer : List Int) (k : Nat) : ∀ (size : Nat) (l : List Nat),
    readIndents buffer k size = some l → l.length = k := by
  induction k with
  | zero =>
    intro size l h
    simp [readIndents] at h
    simp [← h]
  | succ k ih =>
    intro size l h
    simp only [readIndents] at h
    cases hb : buffer[size]? with
    | none => simp [hb] at h
    | some c =>
      simp only [hb] at h
      cases hr : readIndents buffer k (size + 1) with
      | none => simp [hr] at h
      | some l2 =>
        simp only [hr, Option.map_some', Option.some.injEq] at h
        rw [← h, List.length_cons, ih (size + 1) l2 hr]

/-- A call of `deserialize` that stays inside the buffer does not lower the
capacity and leaves the level count within it. -/
theorem deserialize_capacity (t restored : Scanner) (buffer : List Int) (length : Nat)
    (h : tree_sitter_rcl_external_scanner_deserialize t buffer length = some restored) :
    t.indent_capacity ≤ restored.indent_capacity ∧
    restored.indent_length ≤ restored.indent_capacity := by
  unfold tree_sitter_rcl_external_scanner_deserialize at h
  split at h
  · cases hb : buffer[0]? with
    | none => simp [hb] at h
    | some c =>
      simp only [hb] at h
      cases hr : readIndents buffer (toUint32 c) 1 with
      | none => simp [hr] at h
      | some l2 =>
        simp only [hr, Option.map_some', Option.some.injEq] at h
        have hl := readIndents_length buffer (toUint32 c) 1 l2 hr
        rw [← h]
        simp only [Scanner.indent_length, hl]
        split_ifs <;> omega
  · simp only [Option.some.injEq] at h
    rw [← h]
    simp [Scanner.indent_length]

/-- C18: in every state reachable from `create` by calls of `scan` and
`deserialize`, with the capacity below 2^31 at each call of `scan`, the level
count is at most the capacity; a call of `scan` on such a state does not lower
the capacity, and when it pushes onto a full array the capacity is first doubled
(or set to 1 when it is 0), so that the index written is strictly below the
capacity; a call of `deserialize` does not lower the capacity either. -/
theorem capacity_invariant (s : Scanner) (l : TSLexer) (v : TokenType → Bool)
    (t restored : Scanner) (buffer : List Int) (length : Nat) :
    (ReachableBelow s → s.indent_length ≤ s.indent_capacity) ∧
    (s.indent_length ≤ s.indent_capacity → s.indent_capacity < 2147483648 →
      s.indent_capacity ≤
        (tree_sitter_rcl_external_scanner_scan s l v).scanner.indent_capacity ∧
      (tree_sitter_rcl_external_scanner_scan s l v).scanner.indent_length ≤
        (tree_sitter_rcl_external_scanner_scan s l v).scanner.indent_capacity ∧
      ((tree_sitter_rcl_external_scanner_scan s l v).emitted = some TokenType.INDENT →
        s.indent_length <
          (tree_sitter_rcl_external_scanner_scan s l v).scanner.indent_capacity ∧
        (tree_sitter_rcl_external_scanner_scan s l v).scanner.indent_capacity =
          (if s.indent_length = s.indent_capacity then
            (if s.indent_capacity ≠ 0 then 2 * s.indent_capacity else 1)
           else s.indent_capacity))) ∧
    (tree_sitter_rcl_external_scanner_deserialize t buffer length = some restored →
      t.indent_capacity ≤ restored.indent_capacity ∧
      restored.indent_length ≤ restored.indent_capacity) := by
  refine ⟨fun hr => ?_, fun hle hcap => scan_capacity_step s l v hle hcap,
    fun h => deserialize_capacity t restored buffer length h⟩
  induction hr with
  | create => simp [tree_sitter_rcl_external_scanner_create, Scanner.indent_length]
  | scan sc lx vs _ hcap ih => exact (scan_capacity_step sc lx vs ih hcap).2.1
  | deserialize sc rs buf len _ hd _ => exact (deserialize_capacity sc rs buf len hd).2

/-- Witness of C18: the scanner left by an INDENT on a fresh scanner has one
level and capacity 1. -/
theorem capacity_invariant_witness :
    (tree_sitter_rcl_external_scanner_scan tree_sitter_rcl_external_scanner_create
      (lexerAt ['\n', ' ', ' ', 'B']) (validSymbols true true)).scanner = ⟨[2], 1⟩ ∧
    (tree_sitter_rcl_external_scanner_scan tree_sitter_rcl_external_scanner_create
      (lexerAt ['\n', ' ', ' ', 'B']) (validSymbols true true)).scanner.indent_length ≤
    (tree_sitter_rcl_external_scanner_scan tree_sitter_rcl_external_scanner_create
      (lexerAt ['\n', ' ', ' ', 'B']) (validSymbols true true)).scanner.indent_capacity :=
  ⟨by simp [tree_sitter_rcl_external_scanner_scan, tree_sitter_rcl_external_scanner_create,
      mark_end, lexerAt, scanLoop, lookahead, advance, UINT32_MOD, validSymbols,
      current_indent_length, Scanner.indent_length],
   (capacity_invariant _ (lexerAt []) (validSymbols true true)
      tree_sitter_rcl_external_scanner_create tree_sitter_rcl_external_scanner_create [] 0).1
    (ReachableBelow.scan _ (lexerAt ['\n', ' ', ' ', 'B']) (validSymbols true true)
      ReachableBelow.create (by decide))⟩

/-! ## What the loop consumes -/

theorem skipComment_split (cs : List Char) :
    ∃ body, cs = body ++ skipComment cs ∧ '\n' ∉ body := by
  induction cs with
  | nil => exact ⟨[], by simp [skipComment], by simp⟩
  | cons c cs ih =>
    obtain ⟨body, hb, hn⟩ := ih
    unfold skipComment
    split
    · rename_i hc
      refine ⟨c :: body, by rw [List.cons_append, ← hb], ?_⟩
      intro hmem
      rcases List.mem_cons.mp hmem with h | h
      · exact hc.2 h.symm
      · exact hn h
    · exact ⟨[], by simp, by simp⟩

/-- The loop stops on a suffix of its text, and its flag is set exactly when
it was set before or a line feed is among the characters consumed. -/
theorem scanLoop_consumed (inp : List Char) : ∀ (f : Bool) (n : Nat) (fc : Int),
    ∃ pre, inp = pre ++ (scanLoop f n fc inp).input ∧
      ((scanLoop f n fc inp).found_end_of_line = true ↔ (f = true ∨ '\n' ∈ pre)) := by
  generalize hlen : inp.length = k
  induction k using Nat.strong_induction_on generalizing inp with
  | _ k ih =>
    intro f n fc
    cases inp with
    | nil => exact ⟨[], by simp [scanLoop_nil], by simp [scanLoop_nil]⟩
    | cons c cs =>
      have hk : cs.length < k := by rw [← hlen]; simp
      by_cases h1 : c = '\n'
      · subst h1
        obtain ⟨pre, hp, hiff⟩ := ih cs.length hk cs rfl true 0 fc
        rw [scanLoop_newline]
        refine ⟨'\n' :: pre, by rw [List.cons_append, ← hp], ?_⟩
        simp only [List.mem_cons, true_or, or_true, iff_true]
        exact hiff.mpr (Or.inl rfl)
      by_cases h2 : c = ' '
      · subst h2
        obtain ⟨pre, hp, hiff⟩ := ih cs.length hk cs rfl f ((n + 1) % UINT32_MOD) fc
        rw [scanLoop_space]
        refine ⟨' ' :: pre, by rw [List.cons_append, ← hp], ?_⟩
        rw [hiff, List.mem_cons]
        simp
      by_cases h3 : c = '\t'
      · subst h3
        obtain ⟨pre, hp, hiff⟩ := ih cs.length hk cs rfl f ((n + 8) % UINT32_MOD) fc
        rw [scanLoop_tab]
        refine ⟨'\t' :: pre, by rw [List.cons_append, ← hp], ?_⟩
        rw [hiff, List.mem_cons]
        simp
      by_cases h4 : c = '\r'
      · subst h4
        obtain ⟨pre, hp, hiff⟩ := ih cs.length hk cs rfl f n fc
        rw [scanLoop_return]
        refine ⟨'\r' :: pre, by rw [List.cons_append, ← hp], ?_⟩
        rw [hiff, List.mem_cons]
        simp
      by_cases h5 : c = '#'
      · subst h5
        have hle := skipComment_length_le cs
        obtain ⟨body, hb, hnb⟩ := skipComment_split cs
        obtain ⟨pre, hp, hiff⟩ := ih (skipComment cs).length (by omega) (skipComment cs) rfl
          f n (if fc = -1 then toInt32 n else fc)
        rw [scanLoop_comment]
        refine ⟨'#' :: (body ++ pre), ?_, ?_⟩
        · rw [List.cons_append, List.append_assoc, ← hp, ← hb]
        · rw [hiff, List.mem_cons, List.mem_append]
          constructor
          · rintro (h | h)
            · exact Or.inl h
            · exact Or.inr (Or.inr (Or.inr h))
          · rintro (h | h | h | h)
            · exact Or.inl h
            · exact absurd h (by decide)
            · exact absurd h hnb
            · exact Or.inr h
      · rw [scanLoop_stop _ _ _ _ _ h1 h2 h3 h4 h5]
        exact ⟨[], by simp, by simp⟩

theorem scan_lexer_input (s : Scanner) (l : TSLexer) (v : TokenType → Bool) :
    (tree_sitter_rcl_external_scanner_scan s l v).lexer.input =
      (scanLoop false 0 (-1) l.input).input := by
  unfold tree_sitter_rcl_external_scanner_scan
  simp only [mark_end]
  split_ifs <;> rfl

/-- C19: `scan` emits a token only if the characters it skipped include a line
feed.  If the text before the place where the loop stops holds no line feed,
`scan` declines and leaves the scanner as it was; this is so for spaces, tabs
and carriage returns followed by a content character (indentation on the first
line, a call made inside a line) and for a call made at the end of the input. -/
theorem token_requires_line_feed (s : Scanner) (l : TSLexer) (v : TokenType → Bool)
    (pre ws rest : List Char) :
    ((tree_sitter_rcl_external_scanner_scan s l v).returned = true →
      ∃ p, l.input = p ++ (tree_sitter_rcl_external_scanner_scan s l v).lexer.input ∧
        '\n' ∈ p) ∧
    (l.input = pre ++ (tree_sitter_rcl_external_scanner_scan s l v).lexer.input →
      '\n' ∉ pre →
      (tree_sitter_rcl_external_scanner_scan s l v).returned = false ∧
      (tree_sitter_rcl_external_scanner_scan s l v).scanner = s) ∧
    (l.input = ws ++ rest → (∀ c ∈ ws, c = ' ' ∨ c = '\t' ∨ c = '\r') →
      (rest = [] ∨ (lookahead rest ≠ '\n' ∧ lookahead rest ≠ ' ' ∧ lookahead rest ≠ '\t' ∧
        lookahead rest ≠ '\r' ∧ lookahead rest ≠ '#')) →
      (tree_sitter_rcl_external_scanner_scan s l v).returned = false ∧
      (tree_sitter_rcl_external_scanner_scan s l v).scanner = s) := by
  obtain ⟨p, hp, hiff⟩ := scanLoop_consumed l.input false 0 (-1)
  have hin := scan_lexer_input s l v
  refine ⟨fun hret => ?_, fun hpre hn => ?_, fun hl hws hrest => ?_⟩
  · refine ⟨p, by rw [hin]; exact hp, ?_⟩
    by_cases hf : (scanLoop false 0 (-1) l.input).found_end_of_line = true
    · rcases hiff.mp hf with h | h
      · exact absurd h (by decide)
      · exact h
    · have h := scan_not_found s l v (by simpa using hf)
      rw [h.1] at hret
      exact absurd hret (by decide)
  · rw [hin] at hpre
    have hpp : pre = p := by
      have e : pre ++ (scanLoop false 0 (-1) l.input).input =
          p ++ (scanLoop false 0 (-1) l.input).input := by rw [← hpre, ← hp]
      exact List.append_cancel_right e
    subst hpp
    have hf : (scanLoop false 0 (-1) l.input).found_end_of_line = false := by
      cases hfe : (scanLoop false 0 (-1) l.input).found_end_of_line with
      | false => rfl
      | true =>
        rcases hiff.mp hfe with h | h
        · exact absurd h (by decide)
        · exact absurd h hn
    exact scan_not_found s l v hf
  · have e0 : 0 % UINT32_MOD = 0 := by unfold UINT32_MOD; rfl
    have h := scanLoop_indentation_cr ws hws false 0 (-1) rest
    rw [e0] at h
    have hf : (scanLoop false 0 (-1) l.input).found_end_of_line = false := by
      rw [hl, h]
      rcases hrest with hr | hr
      · subst hr
        rw [scanLoop_nil]
      · cases rest with
        | nil => rw [scanLoop_nil]
        | cons c cs =>
          have hr2 : c ≠ '\n' ∧ c ≠ ' ' ∧ c ≠ '\t' ∧ c ≠ '\r' ∧ c ≠ '#' := hr
          rw [scanLoop_stop _ _ _ _ _ hr2.1 hr2.2.1 hr2.2.2.1 hr2.2.2.2.1 hr2.2.2.2.2]
    exact scan_not_found s l v hf

/-- Witness of C19: on the stack `[2]`, four spaces before `X` with no line feed
before them: `scan` declines and the scanner is unchanged. -/
theorem token_requires_line_feed_witness :
    (tree_sitter_rcl_external_scanner_scan ⟨[2], 1⟩ (lexerAt [' ', ' ', ' ', ' ', 'X'])
      (validSymbols true true)).returned = false ∧
    (tree_sitter_rcl_external_scanner_scan ⟨[2], 1⟩ (lexerAt [' ', ' ', ' ', ' ', 'X'])
      (validSymbols true true)).scanner = ⟨[2], 1⟩ :=
  (token_requires_line_feed ⟨[2], 1⟩ (lexerAt [' ', ' ', ' ', ' ', 'X'])
    (validSymbols true true) [] [' ', ' ', ' ', ' '] ['X']).2.2 rfl (by decide)
    (Or.inr (by decide))

/-! ## Checkpoints and the order of the stack -/

theorem readIndents_take (k : Nat) : ∀ (pre xs : List Int) (l : List Nat),
    readIndents (pre ++ xs) k pre.length = some l → l = (xs.take k).map toUint32 := by
  induction k with
  | zero =>
    intro pre xs l h
    simp [readIndents] at h
    simp [← h]
  | succ k ih =>
    intro pre xs l h
    cases xs with
    | nil =>
      simp [readIndents] at h
    | cons x xs =>
      have hget : (pre ++ x :: xs)[pre.length]? = some x := by
        rw [List.getElem?_append_right (Nat.le_refl _)]
        simp
      simp only [readIndents, hget] at h
      cases hr : readIndents (pre ++ x :: xs) k (pre.length + 1) with
      | none => simp [hr] at h
      | some l2 =>
        simp only [hr, Option.map_some', Option.some.injEq] at h
        have hr2 : readIndents ((pre ++ [x]) ++ xs) k (pre ++ [x]).length = some l2 := by
          simpa using hr
        have := ih (pre ++ [x]) xs l2 hr2
        rw [← h, this]
        simp

theorem toUint32_toChar_lt (b : Bool) (x y : Nat) (hxy : x < y) (hy : y ≤ 255) :
    toUint32 (toChar b x) < toUint32 (toChar b y) := by
  cases b
  · rw [toUint32_toChar_unsigned, toUint32_toChar_unsigned]; omega
  · rw [toUint32_toChar_signed, toUint32_toChar_signed]
    split <;> split <;> omega

/-- Passing widths of at most 255 through a `char` keeps their order. -/
theorem strictlyIncreasing_map_char (b : Bool) (l : List Nat) (hs : StrictlyIncreasing l)
    (hw : ∀ w ∈ l, w ≤ 255) :
    StrictlyIncreasing (l.map (fun w => toUint32 (toChar b w))) := by
  unfold StrictlyIncreasing at hs ⊢
  rw [List.pairwise_map]
  exact List.Pairwise.imp_of_mem
    (fun {x y} _ hy hxy => toUint32_toChar_lt b x y hxy (hw y hy)) hs

/-- C20 (as stated, refuted): the strictly increasing stack `[1, 257]` is
restored as `[1, 1]`, which is not strictly increasing, whether plain `char` is
signed or not. -/
theorem restore_breaks_strictly_increasing :
    StrictlyIncreasing [1, 257] ∧
    tree_sitter_rcl_external_scanner_deserialize tree_sitter_rcl_external_scanner_create
      (tree_sitter_rcl_external_scanner_serialize false ⟨[1, 257], 2⟩).1
      (tree_sitter_rcl_external_scanner_serialize false ⟨[1, 257], 2⟩).2 = some ⟨[1, 1], 2⟩ ∧
    tree_sitter_rcl_external_scanner_deserialize tree_sitter_rcl_external_scanner_create
      (tree_sitter_rcl_external_scanner_serialize true ⟨[1, 257], 2⟩).1
      (tree_sitter_rcl_external_scanner_serialize true ⟨[1, 257], 2⟩).2 = some ⟨[1, 1], 2⟩ ∧
    ¬ StrictlyIncreasing [1, 1] := by
  refine ⟨?_, ?_, ?_, ?_⟩
  · unfold StrictlyIncreasing; decide
  · decide
  · decide
  · unfold StrictlyIncreasing; decide

/-- C20 (amended): for every strictly increasing stack whose widths are at most
255, every stack that `deserialize` produces from the output of `serialize` is
again strictly increasing; and with at most 127 levels `deserialize` does
produce a stack, of the same level count. -/
theorem restore_keeps_strictly_increasing (b : Bool) (s t : Scanner)
    (hs : StrictlyIncreasing s.indents) (hw : ∀ w ∈ s.indents, w ≤ 255) :
    (∀ r, tree_sitter_rcl_external_scanner_deserialize t
        (tree_sitter_rcl_external_scanner_serialize b s).1
        (tree_sitter_rcl_external_scanner_serialize b s).2 = some r →
      StrictlyIncreasing r.indents) ∧
    (s.indent_length ≤ 127 →
      ∃ r, tree_sitter_rcl_external_scanner_deserialize t
          (tree_sitter_rcl_external_scanner_serialize b s).1
          (tree_sitter_rcl_external_scanner_serialize b s).2 = some r ∧
        r.indent_length = s.indent_length ∧ StrictlyIncreasing r.indents) := by
  constructor
  · intro r h
    simp only [tree_sitter_rcl_external_scanner_deserialize,
      tree_sitter_rcl_external_scanner_serialize] at h
    split at h
    · simp only [List.getElem?_cons_zero] at h
      cases hr : readIndents
          (toChar b s.indent_length :: List.map (toChar b) s.indents)
          (toUint32 (toChar b s.indent_length)) 1 with
      | none => simp [hr] at h
      | some l2 =>
        simp only [hr, Option.map_some', Option.some.injEq] at h
        have hr2 : readIndents ([toChar b s.indent_length] ++ List.map (toChar b) s.indents)
            (toUint32 (toChar b s.indent_length)) [toChar b s.indent_length].length =
            some l2 := by
          simpa using hr
        have hl := readIndents_take _ _ _ _ hr2
        rw [← h]
        simp only
        rw [hl, ← List.map_take, List.map_map]
        have hsub : StrictlyIncreasing
            (List.take (toUint32 (toChar b s.indent_length)) s.indents) :=
          List.Pairwise.sublist (List.take_sublist _ _) hs
        exact strictlyIncreasing_map_char b _ hsub
          (fun w hw2 => hw w (List.mem_of_mem_take hw2))
    · simp only [Option.some.injEq] at h
      rw [← h]
      exact List.Pairwise.nil
  · intro hn
    have key : toUint32 (toChar b s.indent_length) = s.indent_length := by
      cases b
      · rw [toUint32_toChar_unsigned]; omega
      · rw [toUint32_toChar_signed]; split <;> omega
    have hpos : 0 < (1 + s.indent_length) % UINT32_MOD := by
      unfold UINT32_MOD
      omega
    have hr := readIndents_map (toChar b) s.indents [toChar b s.indent_length]
    simp only [List.singleton_append, List.length_singleton] at hr
    refine ⟨⟨s.indents.map (fun w => toUint32 (toChar b w)),
      if s.indent_length > t.indent_capacity then s.indent_length else t.indent_capacity⟩,
      ?_, ?_, strictlyIncreasing_map_char b s.indents hs hw⟩
    · simp only [tree_sitter_rcl_external_scanner_deserialize,
        tree_sitter_rcl_external_scanner_serialize, hpos, if_true, List.getElem?_cons_zero, key]
      rw [show s.indent_length = s.indents.length from rfl] at *
      rw [hr]
      rfl
    · simp [Scanner.indent_length]

/-- Witness of C20 (amended): the stack `[100, 200]` with a signed plain `char`
is restored as a strictly increasing stack of two levels. -/
theorem restore_keeps_strictly_increasing_witness :
    ∃ r, tree_sitter_rcl_external_scanner_deserialize tree_sitter_rcl_external_scanner_create
        (tree_sitter_rcl_external_scanner_serialize true ⟨[100, 200], 2⟩).1
        (tree_sitter_rcl_external_scanner_serialize true ⟨[100, 200], 2⟩).2 = some r ∧
      r.indent_length = Scanner.indent_length ⟨[100, 200], 2⟩ ∧
      StrictlyIncreasing r.indents :=
  (restore_keeps_strictly_increasing true ⟨[100, 200], 2⟩
    tree_sitter_rcl_external_scanner_create (by unfold StrictlyIncreasing; decide)
    (by decide)).2 (by decide)

end RclScanner
